import Mathlib

/-! Verification of the distarray coordination core (`distarray/context.py`).

The embedding models the `Context` class: its key registry (`key_records`),
group formation (`_make_intracomm`, `_set_engine_rank_mapping`), key cleanup
(`delete_key`, `cleanup_keys`, `get_engine_keys`, `purge_keys`) and the
dispatch proxies (`unary_proxy`, `binary_proxy`).  Remote worker state is
modelled per engine as the list of bound global names; every WorkerPool
interaction (execute / store / pull / rank and size queries) is recorded in a
trace.  Values stored remotely are outside the scope of the verified claims,
so only name bindings are tracked.  The `uuid4` source is modelled as a stream
of 128-bit draws threaded through the state. -/

/-! Key names.  `_generate_key_name` produces `'__distarray_%s' % uuid4().hex`:
the reserved textual marker `__distarray` followed by an underscore and the
32-hex-digit rendering of a 128-bit identifier. -/

abbrev KeyN := List Char

/-- Reserved textual marker `__distarray` (the filter used by `get_engine_keys`). -/
def resPref : KeyN := ['_', '_', 'd', 'i', 's', 't', 'a', 'r', 'r', 'a', 'y']

/-- Marker for generated key names: `__distarray_`. -/
def keyPref : KeyN := resPref ++ ['_']

/-- Lower-case hex digit characters, as in `uuid.hex`. -/
def hexDigit (d : Nat) : Char := Char.ofNat (if d < 10 then 48 + d else 87 + d)

/-- Big-endian, zero-padded 32-digit base-16 rendering of a 128-bit identifier. -/
def uidDigits (uid : Nat) : List Nat := (List.range 32).map (fun i => uid / 16 ^ (31 - i) % 16)

/-- Name of the key generated from the 128-bit draw `uid`
    (`'__distarray_%s' % uid.hex`). -/
def keyName (uid : Nat) : KeyN := keyPref ++ (uidDigits uid).map hexDigit

/-- Global name bound by `import distarray.local` on each engine. -/
def distarrayName : KeyN := ['d', 'i', 's', 't', 'a', 'r', 'r', 'a', 'y']

/-- Global name bound by `import numpy` on each engine. -/
def numpyName : KeyN := ['n', 'u', 'm', 'p', 'y']

abbrev OpName := List Char

/-! Errors.  `unknownKey` is the `KeyError` of `delete_key`; `invalidGroup` the
`ValueError` of `_make_intracomm`; `inconsistentRank` the assertion failure of
`_set_engine_rank_mapping`; `ctxMismatch` / `typeErr` the `TypeError`s of the
proxies; `badTarget` the `ValueError` of the constructor's target check;
`leakFault` the assertion of `cleanup_keys_checked`. -/
inductive DErr where
  | invalidGroup
  | inconsistentRank
  | unknownKey
  | ctxMismatch
  | typeErr
  | badTarget
  | leakFault
deriving DecidableEq

/-- Structured form of the interpolated source strings sent to engines. -/
inductive RemoteCmd where
  | importMods : RemoteCmd
  | createComm (lhs : KeyN) (ranks : List Nat) : RemoteCmd
  | getRank (lhs : KeyN) (comm : KeyN) : RemoteCmd
  | assignCall (lhs : KeyN) (meth : OpName) (args : List KeyN) (casting : Option OpName) : RemoteCmd
  | listGlobals (lhs : KeyN) (pref : KeyN) : RemoteCmd
  | delName (name : KeyN) : RemoteCmd
deriving DecidableEq

/-- One blocking WorkerPool interaction. -/
inductive PoolCall where
  | execute (cmd : RemoteCmd) (targets : List Nat)
  | store (names : List KeyN) (targets : List Nat)
  | pull (name : KeyN) (targets : List Nat)
  | applyRank (targets : List Nat)
  | applySize (targets : List Nat)
deriving DecidableEq

/-- Bind a name in an engine namespace (a rebinding does not duplicate). -/
def bind1 (l : List KeyN) (n : KeyN) : List KeyN := if n ∈ l then l else l ++ [n]

/-- Remove the binding of a name (`del name`). -/
def eraseName : List KeyN → KeyN → List KeyN
  | [], _ => []
  | a :: rest, n => if a = n then rest else a :: eraseName rest n

/-- Effect of executing a command on one engine's global namespace. -/
def cmdTouch (cmd : RemoteCmd) (l : List KeyN) : List KeyN :=
  match cmd with
  | .importMods => bind1 (bind1 l distarrayName) numpyName
  | .createComm lhs _ => bind1 l lhs
  | .getRank lhs _ => bind1 l lhs
  | .assignCall lhs _ _ _ => bind1 l lhs
  | .listGlobals lhs _ => bind1 l lhs
  | .delName n => eraseName l n

/-- The worker pool as seen through IPython's view: engine ids, the fixed
    transport (MPI `COMM_PRIVATE`) rank of each engine, the reported
    communicator size, and the initial engine namespaces. -/
structure Pool where
  viewTargets : List Nat
  privRank : Nat → Nat
  commSize : Nat
  ns0 : Nat → List KeyN

/-- State of a `Context` (the Session): identity, pool, selected targets,
    engine namespaces, the key registry, the uuid draw stream and counter,
    the communicator key and rank list, the derived rank mapping, and the
    trace of WorkerPool calls issued so far. -/
structure Ctx where
  id : Nat
  pool : Pool
  targets : List Nat
  ns : Nat → List KeyN
  key_records : List (KeyN × List Nat)
  uidStream : Nat → Nat
  counter : Nat
  comm_key : Option KeyN
  commList : List Nat
  target_to_rank : List (Nat × Nat)
  trace : List PoolCall

/-- `self.view.execute(cmd, targets=ts, block=True)`. -/
def ctxExecute (c : Ctx) (cmd : RemoteCmd) (ts : List Nat) : Ctx :=
  { c with ns := fun e => if e ∈ ts then cmdTouch cmd (c.ns e) else c.ns e,
           trace := c.trace ++ [.execute cmd ts] }

/-- `self.view.push(dict, targets=ts, block=True)` (names only; values are out
    of scope of the claims). -/
def ctxStore (c : Ctx) (names : List KeyN) (ts : List Nat) : Ctx :=
  { c with ns := fun e => if e ∈ ts then names.foldl bind1 (c.ns e) else c.ns e,
           trace := c.trace ++ [.store names ts] }

/-- `self.view.pull(name, targets=ts, block=True)`; retrieved values are
    recomputed at use sites from the state. -/
def ctxPull (c : Ctx) (name : KeyN) (ts : List Nat) : Ctx :=
  { c with trace := c.trace ++ [.pull name ts] }

/-- Association-list lookup (Python `dict` access). -/
def alookup {α β : Type} [DecidableEq α] : List (α × β) → α → Option β
  | [], _ => none
  | (k, v) :: rest, key => if k = key then some v else alookup rest key

/-- Remove an entry from the registry (`del self.key_records[key]`). -/
def removeRec (recs : List (KeyN × List Nat)) (key : KeyN) : List (KeyN × List Nat) :=
  recs.filter (fun p => !decide (p.1 = key))

/-- `Context._generate_key_name`: draw a fresh uuid, build the name; performs
    no registry bookkeeping and no remote call. -/
def generate_key_name (c : Ctx) : KeyN × Ctx :=
  (keyName (c.uidStream c.counter), { c with counter := c.counter + 1 })

/-- `Context._generate_key(targets=None)`: generate a name and record the
    target engines (defaulting to `self.targets`) it will be pushed to. -/
def generate_key (c : Ctx) (targs : Option (List Nat)) : KeyN × Ctx :=
  let ts := targs.getD c.targets
  let p := generate_key_name c
  (p.1, { p.2 with key_records := (p.1, ts) :: p.2.key_records })

/-- Generate `n` keys in sequence, each with the default owner set. -/
def genKeysN (c : Ctx) : Nat → List KeyN × Ctx
  | 0 => ([], c)
  | n + 1 =>
    let p := generate_key c none
    let q := genKeysN p.2 n
    (p.1 :: q.1, q.2)

/-- `Context._key_and_push(*values)`: one key per value, then a single
    blocking push of all pairs (only the number of values is relevant). -/
def key_and_push (c : Ctx) (nvals : Nat) : List KeyN × Ctx :=
  let p := genKeysN c nvals
  (p.1, ctxStore p.2 p.1 p.2.targets)

/-- `Context.delete_engine_key(key, targets=None)`: `del key` on the engines. -/
def delete_engine_key (c : Ctx) (key : KeyN) (targs : Option (List Nat)) : Ctx :=
  ctxExecute c (.delName key) (targs.getD c.targets)

/-- `Context.delete_key(key)`: delete from the recorded engines and the
    registry, or fail with the unknown-key error. -/
def delete_key (c : Ctx) (key : KeyN) : Except DErr Unit × Ctx :=
  match alookup c.key_records key with
  | some ts =>
    let c1 := delete_engine_key c key (some ts)
    (.ok (), { c1 with key_records := removeRec c1.key_records key })
  | none => (.error .unknownKey, c)

/-- Loop body of `Context.cleanup_keys`. -/
def cleanupGo : List KeyN → Ctx → Except DErr Unit × Ctx
  | [], c => (.ok (), c)
  | k :: ks, c =>
    match delete_key c k with
    | (.ok _, c1) => cleanupGo ks c1
    | (.error e, c1) => (.error e, c1)

/-- `Context.cleanup_keys`: delete every tracked key. -/
def cleanup_keys (c : Ctx) : Except DErr Unit × Ctx :=
  cleanupGo (c.key_records.map Prod.fst) c

/-- Names of one engine's globals that carry the reserved marker. -/
def prefFilter (l : List KeyN) : List KeyN := l.filter (fun n => resPref.isPrefixOf n)

/-- Build the dict key -> engines from per-engine key lists
    (the nested loop of `get_engine_keys`). -/
def dictAppend (acc : List (KeyN × List Nat)) (key : KeyN) (e : Nat) : List (KeyN × List Nat) :=
  if (alookup acc key).isSome then
    acc.map (fun p => if p.1 = key then (p.1, p.2 ++ [e]) else p)
  else acc ++ [(key, [e])]

def buildEngineKeys (targets : List Nat) (keylists : List (List KeyN)) : List (KeyN × List Nat) :=
  (targets.zip keylists).foldl (fun acc p => p.2.foldl (fun a k => dictAppend a k p.1) acc) []

/-- `Context.get_engine_keys`: discover, via `globals()`, which reserved-marker
    names exist on each target engine. -/
def get_engine_keys (c : Ctx) : Except DErr (List (KeyN × List Nat)) × Ctx :=
  let p := generate_key c none
  let keylists := p.2.targets.map (fun e => prefFilter (p.2.ns e))
  let c2 := ctxExecute p.2 (.listGlobals p.1 resPref) p.2.targets
  let c3 := ctxPull c2 p.1 c2.targets
  match delete_key c3 p.1 with
  | (.ok _, c4) => (.ok (buildEngineKeys c4.targets keylists), c4)
  | (.error e, c4) => (.error e, c4)

/-- `Context.clean_engine_keys`: strip the Context-internal `_comm_key`. -/
def clean_engine_keys (c : Ctx) (ek : List (KeyN × List Nat)) : List (KeyN × List Nat) :=
  ek.filter (fun p => !decide (some p.1 = c.comm_key))

/-- `Context.get_leftover_keys`. -/
def get_leftover_keys (c : Ctx) : Except DErr (List (KeyN × List Nat)) × Ctx :=
  match get_engine_keys c with
  | (.ok ek, c1) => (.ok (clean_engine_keys c1 ek), c1)
  | (.error e, c1) => (.error e, c1)

/-- `Context.purge_keys`: delete all leftover keys, report whether any existed. -/
def purge_keys (c : Ctx) : Except DErr Bool × Ctx :=
  match get_leftover_keys c with
  | (.ok lk, c1) =>
    (.ok (decide (0 < lk.length)), lk.foldl (fun acc p => delete_engine_key acc p.1 (some p.2)) c1)
  | (.error e, c1) => (.error e, c1)

/-- `Context.cleanup_keys_checked(check=True)`. -/
def cleanup_keys_checked (c : Ctx) (check : Bool) : Except DErr Unit × Ctx :=
  match cleanup_keys c with
  | (.ok _, c1) =>
    match purge_keys c1 with
    | (.ok leftovers, c2) =>
      if check && leftovers then (.error .leakFault, c2) else (.ok (), c2)
    | (.error e, c2) => (.error e, c2)
  | (.error e, c1) => (.error e, c1)

/-- `Context.clear_comm_key`: delete the internal `_comm_key` from the engines. -/
def clear_comm_key (c : Ctx) : Ctx :=
  match c.comm_key with
  | some ck => { delete_engine_key c ck none with comm_key := none }
  | none => c

/-- Python `set(l1) == set(l2)` on integer lists. -/
def sameElems (l1 l2 : List Nat) : Bool :=
  (l1.all fun x => decide (x ∈ l2)) && (l2.all fun x => decide (x ∈ l1))

/-- Modelled from the spec: `create_comm_with_list` is defined in
    `distarray/mpiutils.py`, which is absent from the sources (only its tests
    are present).  Per the spec's Step 2/3, the collective creates a subgroup
    whose members are the workers whose transport rank appears in the passed
    list, with dense internal ranks; the group rank of a member is its position
    in the passed list. -/
def commRank (commList : List Nat) (r : Nat) : Nat := commList.findIdx (fun x => x == r)

/-- Modelled from the spec: a worker whose transport rank is not in the passed
    list receives an explicitly invalid (null) communicator handle. -/
def commIsNull (commList : List Nat) (r : Nat) : Bool := !(commList.contains r)

/-- `Context._make_intracomm`: query every view engine's transport rank and the
    pool size, check the address space is exactly `{0..size-1}`, then issue the
    collective subgroup creation across the ENTIRE view with the selected
    engines' transport ranks.  The communicator key is generated without being
    recorded in the registry. -/
def make_intracomm (c : Ctx) : Except DErr Unit × Ctx :=
  let rank_map : List (Nat × Nat) := c.pool.viewTargets.map (fun e => (e, c.pool.privRank e))
  let c1 : Ctx := { c with trace := c.trace ++ [.applyRank c.pool.viewTargets] }
  let ranks : List Nat := c1.targets.map (fun e => (alookup rank_map e).getD 0)
  let c2 : Ctx := { c1 with trace := c1.trace ++ [.applySize c1.pool.viewTargets] }
  if sameElems (rank_map.map Prod.snd) (List.range c2.pool.commSize) then
    let p := generate_key_name c2
    let c4 : Ctx := { p.2 with comm_key := some p.1, commList := ranks }
    (.ok (), ctxExecute c4 (.createComm p.1 ranks) c4.pool.viewTargets)
  else (.error .invalidGroup, c2)

/-- `Context._set_engine_rank_mapping`: compute each selected engine's rank in
    the new communicator, record the mapping, delete the scratch key, and
    assert the mapping is a bijection onto the dense range. -/
def set_engine_rank_mapping (c : Ctx) : Except DErr Unit × Ctx :=
  let p := generate_key c none
  let c2 := ctxExecute p.2 (.getRank p.1 (p.2.comm_key.getD [])) p.2.targets
  let c3 := ctxPull c2 p.1 c2.targets
  let t2r := c3.targets.map (fun e => (e, commRank c3.commList (c3.pool.privRank e)))
  let c4 : Ctx := { c3 with target_to_rank := t2r }
  match delete_key c4 p.1 with
  | (.ok _, c5) =>
    if sameElems c5.targets (c5.target_to_rank.map Prod.fst)
        && sameElems (List.range c5.targets.length) (c5.target_to_rank.map Prod.snd) then
      (.ok (), c5)
    else (.error .inconsistentRank, c5)
  | (.error e, c5) => (.error e, c5)

/-- Target validation loop of `Context.__init__`. -/
def resolveTargets (allT : List Nat) : Option (List Nat) → Except DErr (List Nat)
  | none => .ok allT
  | some ts => if ts.all (fun t => decide (t ∈ allT)) then .ok ts else .error .badTarget

/-- `Context.__init__(view, targets)`: resolve targets, import the modules on
    every view engine, set up the registry, form the intracomm, and derive the
    engine-to-rank mapping. -/
def contextInit (pool : Pool) (targs : Option (List Nat)) (stream : Nat → Nat) (sid : Nat) :
    Except DErr Ctx :=
  match resolveTargets pool.viewTargets targs with
  | .error e => .error e
  | .ok ts =>
    let c0 : Ctx :=
      { id := sid, pool := pool, targets := ts, ns := pool.ns0,
        key_records := [], uidStream := stream, counter := 0, comm_key := none,
        commList := [], target_to_rank := [], trace := [] }
    let c1 := ctxExecute c0 .importMods pool.viewTargets
    match make_intracomm c1 with
    | (.error e, _) => .error e
    | (.ok _, c2) =>
      match set_engine_rank_mapping c2 with
      | (.error e, _) => .error e
      | (.ok _, c3) => .ok c3

/-- Client-side handle: a key plus the identity of its owning Context. -/
structure DistArray where
  key : KeyN
  context : Nat
deriving DecidableEq

/-- An operand of a dispatch call: a distributed handle, a scalar, or any
    other (rejected) value. -/
inductive Operand where
  | da (d : DistArray)
  | scalar (v : Int)
  | other
deriving DecidableEq

/-- Shared tail of the proxies: allocate the result key and issue the compute
    request to the selected engines. -/
def finishApply (c : Ctx) (meth : OpName) (casting : Option OpName) (args : List KeyN) :
    Except DErr DistArray × Ctx :=
  let p := generate_key c none
  let c2 := ctxExecute p.2 (.assignCall p.1 meth args casting) p.2.targets
  (.ok ⟨p.1, c.id⟩, c2)

/-- `unary_proxy(context, a, meth_name, ...)`. -/
def unary_proxy (c : Ctx) (a : Operand) (meth : OpName) (casting : Option OpName) :
    Except DErr DistArray × Ctx :=
  match a with
  | .da x =>
    if c.id ≠ x.context then (.error .ctxMismatch, c)
    else finishApply c meth casting [x.key]
  | _ => (.error .typeErr, c)

/-- `binary_proxy(context, a, b, meth_name, ...)`. -/
def binary_proxy (c : Ctx) (a b : Operand) (meth : OpName) (casting : Option OpName) :
    Except DErr DistArray × Ctx :=
  match a, b with
  | .da x, .da y =>
    if y.context ≠ x.context then (.error .ctxMismatch, c)
    else if c.id ≠ x.context then (.error .ctxMismatch, c)
    else finishApply c meth casting [x.key, y.key]
  | .da x, .scalar _ =>
    if c.id ≠ x.context then (.error .ctxMismatch, c)
    else
      let p := key_and_push c 1
      finishApply p.2 meth casting [x.key, p.1.headD []]
  | .scalar _, .da y =>
    if c.id ≠ y.context then (.error .ctxMismatch, c)
    else
      let p := key_and_push c 1
      finishApply p.2 meth casting [p.1.headD [], y.key]
  | _, _ => (.error .typeErr, c)

/-- Registry-level operations a client can drive after construction. -/
inductive RegOp where
  | gen
  | del (k : KeyN)
  | cleanup
  | purge
deriving DecidableEq

/-- Resulting state of one registry operation (errors leave the threaded
    state as the operation left it). -/
def applyOp (c : Ctx) : RegOp → Ctx
  | .gen => (generate_key c none).2
  | .del k => (delete_key c k).2
  | .cleanup => (cleanup_keys c).2
  | .purge => (purge_keys c).2

def applyOps (c : Ctx) (ops : List RegOp) : Ctx := ops.foldl applyOp c

/-- Operand combinations rejected by `binary_proxy`'s session checks. -/
def sessionMismatch (sid : Nat) : Operand → Operand → Bool
  | .da x, .da y => decide (x.context ≠ y.context) || decide (sid ≠ x.context)
  | .da x, .scalar _ => decide (sid ≠ x.context)
  | .scalar _, .da y => decide (sid ≠ y.context)
  | _, _ => false

/-- Operand pairs accepted by `binary_proxy` (at least one distributed
    reference, the other a Handle or a scalar). -/
def acceptedPair : Operand → Operand → Bool
  | .da _, .da _ => true
  | .da _, .scalar _ => true
  | .scalar _, .da _ => true
  | _, _ => false

/-- Number of keys a dispatch allocates for this operand beyond the result
    key: one per scalar (pushed before dispatch), none otherwise. -/
def scalarOps : Operand → Nat
  | .scalar _ => 1
  | _ => 0

/-- The draw at position `n` of the stream yields a name not currently in the
    registry (the uuid freshness contract, relative to one state). -/
abbrev freshAt (c : Ctx) (n : Nat) : Prop :=
  alookup c.key_records (keyName (c.uidStream n)) = none

/-- Compute requests (execution of an operation call) in a trace. -/
def isComputeCall : PoolCall → Bool
  | .execute (.assignCall _ _ _ _) _ => true
  | _ => false

/-- Store (push) requests in a trace. -/
def isStoreCall : PoolCall → Bool
  | .store _ _ => true
  | _ => false

/-- The name is tracked by the registry with engine `e` among its owners. -/
def trackedHere (c : Ctx) (name : KeyN) (e : Nat) : Bool :=
  match alookup c.key_records name with
  | some ts => decide (e ∈ ts)
  | none => false

/-- Registry / remote synchronization: every reserved-marker name bound on a
    session worker is either the communicator key or tracked for that worker.
    This is the state the registry's own operations maintain. -/
abbrev syncedNS (c : Ctx) (ck : KeyN) : Prop :=
  ∀ e ∈ c.targets, ∀ name ∈ c.ns e, resPref.isPrefixOf name = true →
    name = ck ∨ trackedHere c name e = true

/-- Invariant tying the communicator key to the state: it is set, never in the
    registry, bound on every pool worker, and never produced by a future draw. -/
def commInv (c : Ctx) (ck : KeyN) : Prop :=
  c.comm_key = some ck ∧
  alookup c.key_records ck = none ∧
  (∀ e ∈ c.pool.viewTargets, ck ∈ c.ns e) ∧
  (∀ n, c.counter ≤ n → keyName (c.uidStream n) ≠ ck)

/-- Injectivity of the transport rank assignment on a list of engines. -/
abbrev injOnList (f : Nat → Nat) (l : List Nat) : Prop :=
  ∀ a ∈ l, ∀ b ∈ l, f a = f b → a = b

/-- Whether a fallible step returned successfully. -/
def exOk {α : Type} : Except DErr α → Bool
  | .ok _ => true
  | .error _ => false

/-! Concrete fixtures used by witnesses and counterexamples. -/

def exStream : Nat → Nat := fun n => n

def exPool : Pool :=
  { viewTargets := [0, 1, 2, 3], privRank := fun e => e, commSize := 4, ns0 := fun _ => [] }

def dummyCtx : Ctx :=
  { id := 0, pool := exPool, targets := [0, 1], ns := fun _ => [], key_records := [],
    uidStream := exStream, counter := 0, comm_key := none, commList := [],
    target_to_rank := [], trace := [] }

def kA : KeyN := keyName 99

def kB : KeyN := keyName 7

def ckW : KeyN := keyName 0

def addName : OpName := ['a', 'd', 'd']

/-- State with one registered key bound on the session workers. -/
def wCtxReg : Ctx := { dummyCtx with key_records := [(kA, [0, 1])], ns := fun _ => [kA] }

/-- State just after construction: communicator key bound everywhere, not
    registered, with a stream whose future draws differ from it. -/
def wCtxComm : Ctx :=
  { dummyCtx with
    comm_key := some ckW, ns := fun _ => [ckW], counter := 1,
    uidStream := fun n => min n 1 }

/-- Synchronized state: communicator key plus one tracked key. -/
def wCtxSync : Ctx :=
  { dummyCtx with
    comm_key := some ckW, key_records := [(kB, [0, 1])],
    ns := fun e => if e ∈ [0, 1] then [ckW, kB] else [], counter := 1,
    uidStream := fun n => min n 1 }

def exInitAll : Except DErr Ctx := contextInit exPool none exStream 0

def exCtxAfterInit : Ctx :=
  match exInitAll with
  | .ok c => c
  | .error _ => dummyCtx

/-- Result of `get_engine_keys` right after `cleanup_keys` on a freshly
    constructed session over the example pool. -/
def exDiscoverAfterCleanup : Except DErr (List (KeyN × List Nat)) :=
  (get_engine_keys (cleanup_keys exCtxAfterInit).2).1

/-- Number of reserved-prefix names the discovery reports after cleanup. -/
def exDiscoverLen : Nat :=
  match exDiscoverAfterCleanup with
  | .ok l => l.length
  | .error _ => 0

/-! Helper lemmas about key names. -/

theorem hexDigit_inj_aux : ∀ a, a < 16 → ∀ b, b < 16 → hexDigit a = hexDigit b → a = b := by
  decide

theorem hexDigit_inj {a b : Nat} (ha : a < 16) (hb : b < 16) (h : hexDigit a = hexDigit b) :
    a = b :=
  hexDigit_inj_aux a ha b hb h

theorem digit_testBit (n j r : Nat) (hr : r < 4) :
    (n / 16 ^ j % 16).testBit r = n.testBit (4 * j + r) := by
  have h16 : (16 : Nat) ^ j = 2 ^ (4 * j) := by
    rw [Nat.pow_mul]
  have h2 : (16 : Nat) = 2 ^ 4 := by norm_num
  rw [h16, ← Nat.shiftRight_eq_div_pow, h2, Nat.testBit_mod_two_pow,
    Nat.testBit_shiftRight]
  simp [hr]

theorem uid_eq_of_digits_eq {a b : Nat} (ha : a < 2 ^ 128) (hb : b < 2 ^ 128)
    (h : ∀ j, j < 32 → a / 16 ^ j % 16 = b / 16 ^ j % 16) : a = b := by
  apply Nat.eq_of_testBit_eq
  intro i
  by_cases hi : i < 128
  · have hj : i / 4 < 32 := by omega
    have hr : i % 4 < 4 := Nat.mod_lt _ (by norm_num)
    have hi4 : 4 * (i / 4) + i % 4 = i := by omega
    rw [← hi4, ← digit_testBit a _ _ hr, ← digit_testBit b _ _ hr, h _ hj]
  · have hle : (2 : Nat) ^ 128 ≤ 2 ^ i := Nat.pow_le_pow_right (by norm_num) (by omega)
    rw [Nat.testBit_lt_two_pow (lt_of_lt_of_le ha hle),
      Nat.testBit_lt_two_pow (lt_of_lt_of_le hb hle)]

theorem map_hexDigit_inj {l1 l2 : List Nat} (h1 : ∀ x ∈ l1, x < 16) (h2 : ∀ x ∈ l2, x < 16)
    (h : l1.map hexDigit = l2.map hexDigit) : l1 = l2 := by
  induction l1 generalizing l2 with
  | nil => cases l2 with
    | nil => rfl
    | cons b t => simp at h
  | cons a t ih => cases l2 with
    | nil => simp at h
    | cons b t2 =>
      simp only [List.map_cons, List.cons.injEq] at h
      have hab : a = b := hexDigit_inj (h1 a (by simp)) (h2 b (by simp)) h.1
      have ht : t = t2 := ih (fun x hx => h1 x (by simp [hx])) (fun x hx => h2 x (by simp [hx])) h.2
      rw [hab, ht]

theorem uidDigits_eq_iff {a b : Nat} (h : uidDigits a = uidDigits b) :
    ∀ j, j < 32 → a / 16 ^ j % 16 = b / 16 ^ j % 16 := by
  intro j hj
  have hlt : 31 - j < 32 := by omega
  have hget := congrArg (fun l => l.getD (31 - j) 0) h
  simp only [uidDigits, List.getD_eq_getElem?_getD, List.getElem?_map,
    List.getElem?_range hlt] at hget
  have hji : 31 - (31 - j) = j := by omega
  simpa [hji] using hget

theorem keyName_inj {a b : Nat} (ha : a < 2 ^ 128) (hb : b < 2 ^ 128)
    (h : keyName a = keyName b) : a = b := by
  unfold keyName at h
  have h2 : (uidDigits a).map hexDigit = (uidDigits b).map hexDigit :=
    List.append_cancel_left h
  have hd : uidDigits a = uidDigits b := by
    apply map_hexDigit_inj _ _ h2 <;>
      · intro x hx
        simp only [uidDigits, List.mem_map] at hx
        obtain ⟨i, _, hi⟩ := hx
        omega
  exact uid_eq_of_digits_eq ha hb (uidDigits_eq_iff hd)

theorem resPref_prefix_keyName (uid : Nat) : resPref.isPrefixOf (keyName uid) = true := by
  have hk : keyName uid = resPref ++ ('_' :: (uidDigits uid).map hexDigit) := by
    simp [keyName, keyPref]
  rw [hk]
  induction resPref with
  | nil => simp [List.isPrefixOf]
  | cons a t ih => simp [List.isPrefixOf, ih]

/-! Helper lemmas about `sameElems`. -/

theorem sameElems_iff {l1 l2 : List Nat} :
    sameElems l1 l2 = true ↔ l1.toFinset = l2.toFinset := by
  constructor
  · intro h
    simp only [sameElems, Bool.and_eq_true, List.all_eq_true, decide_eq_true_eq] at h
    ext x
    simp only [List.mem_toFinset]
    exact ⟨fun hx => h.1 x hx, fun hx => h.2 x hx⟩
  · intro h
    simp only [sameElems, Bool.and_eq_true, List.all_eq_true, decide_eq_true_eq]
    constructor
    · intro x hx
      have : x ∈ l1.toFinset := List.mem_toFinset.2 hx
      rw [h] at this
      exact List.mem_toFinset.1 this
    · intro x hx
      have : x ∈ l2.toFinset := List.mem_toFinset.2 hx
      rw [← h] at this
      exact List.mem_toFinset.1 this

theorem range_toFinset (n : Nat) : (List.range n).toFinset = Finset.range n := by
  ext x
  simp [List.mem_toFinset, List.mem_range, Finset.mem_range]

/-! Helper lemmas about the registry and engine namespaces. -/

theorem alookup_removeRec_self (recs : List (KeyN × List Nat)) (k : KeyN) :
    alookup (removeRec recs k) k = none := by
  induction recs with
  | nil => rfl
  | cons p rest ih =>
    by_cases hp : p.1 = k
    · simpa [removeRec, hp] using ih
    · simpa [removeRec, List.filter_cons, hp, alookup] using ih

theorem alookup_removeRec_ne (recs : List (KeyN × List Nat)) (k k' : KeyN) (h : k' ≠ k) :
    alookup (removeRec recs k) k' = alookup recs k' := by
  induction recs with
  | nil => rfl
  | cons p rest ih =>
    cases p with
    | mk a b =>
      simp only [removeRec, List.filter_cons] at ih ⊢
      by_cases hak : a = k
      · subst hak
        have hak' : a ≠ k' := fun hh => h hh.symm
        simp [alookup, hak', ih]
      · by_cases hak' : a = k'
        · subst hak'
          simp [alookup, hak, h]
        · simp [alookup, hak, hak', ih]

theorem eraseName_not_mem {l : List KeyN} (h : l.Nodup) (k : KeyN) : k ∉ eraseName l k := by
  induction l with
  | nil => simp [eraseName]
  | cons a rest ih =>
    by_cases ha : a = k
    · simpa [eraseName, ha] using fun hk => (List.nodup_cons.1 h).1 (ha ▸ hk)
    · simp only [eraseName, if_neg ha]
      intro hmem
      rcases List.mem_cons.1 hmem with hh | hh
      · exact ha hh.symm
      · exact ih (List.nodup_cons.1 h).2 hh

theorem mem_eraseName_of_mem {l : List KeyN} {k n : KeyN} (h : n ∈ eraseName l k) : n ∈ l := by
  induction l with
  | nil => exact absurd h (List.not_mem_nil n)
  | cons a rest ih =>
    by_cases ha : a = k
    · simp only [eraseName, if_pos ha] at h
      exact List.mem_cons_of_mem _ h
    · simp only [eraseName, if_neg ha] at h
      rcases List.mem_cons.1 h with hh | hh
      · exact hh ▸ List.mem_cons_self _ _
      · exact List.mem_cons_of_mem _ (ih hh)

theorem mem_eraseName_of_ne {l : List KeyN} {k n : KeyN} (hne : n ≠ k) (h : n ∈ l) :
    n ∈ eraseName l k := by
  induction l with
  | nil => exact absurd h (List.not_mem_nil n)
  | cons a rest ih =>
    by_cases ha : a = k
    · simp only [eraseName, if_pos ha]
      rcases List.mem_cons.1 h with hh | hh
      · exact absurd (hh.trans ha) hne
      · exact hh
    · simp only [eraseName, if_neg ha]
      rcases List.mem_cons.1 h with hh | hh
      · exact hh ▸ List.mem_cons_self _ _
      · exact List.mem_cons_of_mem _ (ih hh)

theorem eraseName_nodup {l : List KeyN} (h : l.Nodup) (k : KeyN) : (eraseName l k).Nodup := by
  induction l with
  | nil => simp [eraseName]
  | cons a rest ih =>
    rcases List.nodup_cons.1 h with ⟨ha, hrest⟩
    by_cases hak : a = k
    · simpa [eraseName, hak] using hrest
    · simp only [eraseName, if_neg hak, List.nodup_cons]
      exact ⟨fun hmem => ha (mem_eraseName_of_mem hmem), ih hrest⟩

theorem mem_bind1_iff {l : List KeyN} {m n : KeyN} : n ∈ bind1 l m ↔ n ∈ l ∨ n = m := by
  by_cases hm : m ∈ l
  · simp only [bind1, if_pos hm]
    constructor
    · exact Or.inl
    · rintro (h | h)
      · exact h
      · exact h ▸ hm
  · simp [bind1, if_neg hm]

theorem bind1_nodup {l : List KeyN} (h : l.Nodup) (n : KeyN) : (bind1 l n).Nodup := by
  by_cases hn : n ∈ l
  · simpa [bind1, hn] using h
  · simp only [bind1, if_neg hn]
    simpa [List.nodup_append] using ⟨h, fun hh => hn hh⟩

/-! Claim theorems. -/

/-- C3: a binary dispatch whose Handle operand does not belong to the session
being dispatched against, or whose two Handle operands belong to different
sessions, fails with the context-mismatch error, and the state — in particular
the trace of WorkerPool calls — is returned unchanged, so the error is raised
before any store or execute call is issued for that dispatch. -/
theorem claim_C3_mismatch_before_dispatch (c : Ctx) (a b : Operand) (meth : OpName)
    (casting : Option OpName) (h : sessionMismatch c.id a b = true) :
    binary_proxy c a b meth casting = (.error .ctxMismatch, c) := by
  cases a with
  | da x =>
    cases b with
    | da y =>
      simp only [sessionMismatch, Bool.or_eq_true, decide_eq_true_eq] at h
      simp only [binary_proxy]
      by_cases hyx : y.context ≠ x.context
      · rw [if_pos hyx]
      · rw [if_neg hyx]
        rcases h with h | h
        · exact absurd (Ne.symm h) hyx
        · rw [if_pos h]
    | scalar v =>
      simp only [sessionMismatch, decide_eq_true_eq] at h
      simp only [binary_proxy]
      rw [if_pos h]
    | other => simp [sessionMismatch] at h
  | scalar v =>
    cases b with
    | da y =>
      simp only [sessionMismatch, decide_eq_true_eq] at h
      simp only [binary_proxy]
      rw [if_pos h]
    | scalar w => simp [sessionMismatch] at h
    | other => simp [sessionMismatch] at h
  | other => simp [sessionMismatch] at h

theorem claim_C3_mismatch_before_dispatch_witness :
    binary_proxy dummyCtx (.da ⟨kA, 1⟩) (.scalar 7) addName none =
      (.error .ctxMismatch, dummyCtx) :=
  claim_C3_mismatch_before_dispatch dummyCtx (.da ⟨kA, 1⟩) (.scalar 7) addName none (by decide)

/-- C4: `delete_key` fails with the unknown-key error whenever the key is not
registered; for a registered key, the first call succeeds, removing the
registry entry and the remote bindings on the recorded engines, and a second
call on the same key fails with the unknown-key error, leaving the state
unchanged. -/
theorem claim_C4_delete_twice (c : Ctx) (k : KeyN) (ts : List Nat)
    (hreg : alookup c.key_records k = some ts)
    (hnd : ∀ e ∈ ts, (c.ns e).Nodup) :
    (∀ c' k', alookup c'.key_records k' = none →
        delete_key c' k' = (.error .unknownKey, c')) ∧
    (delete_key c k).1 = .ok () ∧
    alookup (delete_key c k).2.key_records k = none ∧
    (∀ e ∈ ts, k ∉ (delete_key c k).2.ns e) ∧
    delete_key (delete_key c k).2 k = (.error .unknownKey, (delete_key c k).2) := by
  have hunk : ∀ c' k', alookup c'.key_records k' = none →
      delete_key c' k' = (.error .unknownKey, c') := by
    intro c' k' hh
    simp [delete_key, hh]
  have hok : (delete_key c k).1 = .ok () := by
    simp [delete_key, hreg]
  have hrec : alookup (delete_key c k).2.key_records k = none := by
    simp [delete_key, hreg, delete_engine_key, ctxExecute]
    exact alookup_removeRec_self _ _
  have hns : ∀ e ∈ ts, k ∉ (delete_key c k).2.ns e := by
    intro e he
    simp only [delete_key, hreg, delete_engine_key, ctxExecute, Option.getD]
    simp only [if_pos he, cmdTouch]
    exact eraseName_not_mem (hnd e he) k
  exact ⟨hunk, hok, hrec, hns, hunk _ _ hrec⟩

theorem claim_C4_delete_twice_witness :
    (delete_key wCtxReg kA).1 = .ok () ∧
    alookup (delete_key wCtxReg kA).2.key_records kA = none ∧
    delete_key (delete_key wCtxReg kA).2 kA =
      (.error .unknownKey, (delete_key wCtxReg kA).2) := by
  have h := claim_C4_delete_twice wCtxReg kA [0, 1] (by decide) (by decide)
  exact ⟨h.2.1, h.2.2.1, h.2.2.2.2⟩

/-! Helper lemmas about `genKeysN`. -/

theorem genKeysN_trace (c : Ctx) (n : Nat) : (genKeysN c n).2.trace = c.trace := by
  induction n generalizing c with
  | zero => rfl
  | succ n ih => simp [genKeysN, ih, generate_key, generate_key_name]

theorem genKeysN_targets (c : Ctx) (n : Nat) : (genKeysN c n).2.targets = c.targets := by
  induction n generalizing c with
  | zero => rfl
  | succ n ih => simp [genKeysN, ih, generate_key, generate_key_name]

theorem genKeysN_ns (c : Ctx) (n : Nat) : (genKeysN c n).2.ns = c.ns := by
  induction n generalizing c with
  | zero => rfl
  | succ n ih => simp [genKeysN, ih, generate_key, generate_key_name]

theorem genKeysN_keys (c : Ctx) (n : Nat) :
    (genKeysN c n).1 = (List.range n).map (fun i => keyName (c.uidStream (c.counter + i))) := by
  induction n generalizing c with
  | zero => simp [genKeysN]
  | succ n ih =>
    simp only [genKeysN]
    rw [ih]
    rw [List.range_succ_eq_map, List.map_cons, List.map_map]
    simp only [generate_key, generate_key_name]
    refine congrArg₂ List.cons ?_ ?_
    · simp
    · apply List.map_congr_left
      intro i hi
      simp only [Function.comp_apply, Nat.succ_eq_add_one]
      congr 2
      omega

theorem genKeysN_lookup_old (c : Ctx) (n : Nat) (k : KeyN)
    (hk : ∀ i, i < n → keyName (c.uidStream (c.counter + i)) ≠ k) :
    alookup (genKeysN c n).2.key_records k = alookup c.key_records k := by
  induction n generalizing c with
  | zero => simp [genKeysN]
  | succ n ih =>
    simp only [genKeysN]
    have h2 : ∀ i, i < n →
        keyName ((generate_key c none).2.uidStream ((generate_key c none).2.counter + i)) ≠ k := by
      intro i hi
      have h3 := hk (i + 1) (by omega)
      simp only [generate_key, generate_key_name]
      have harith : c.counter + (i + 1) = c.counter + 1 + i := by omega
      rwa [harith] at h3
    rw [ih _ h2]
    have h0 := hk 0 (by omega)
    simp only [Nat.add_zero] at h0
    simp [generate_key, generate_key_name, alookup, h0]

theorem genKeysN_lookup_new (c : Ctx) (n : Nat) (j : Nat) (hj : j < n)
    (hne : ∀ i, i < n → i ≠ j →
      keyName (c.uidStream (c.counter + i)) ≠ keyName (c.uidStream (c.counter + j))) :
    alookup (genKeysN c n).2.key_records (keyName (c.uidStream (c.counter + j))) =
      some c.targets := by
  induction n generalizing c j with
  | zero => omega
  | succ n ih =>
    simp only [genKeysN]
    cases j with
    | zero =>
      have hlater : ∀ i, i < n →
          keyName ((generate_key c none).2.uidStream ((generate_key c none).2.counter + i)) ≠
            keyName (c.uidStream (c.counter + 0)) := by
        intro i hi
        have h3 := hne (i + 1) (by omega) (by omega)
        simp only [generate_key, generate_key_name]
        have harith : c.counter + (i + 1) = c.counter + 1 + i := by omega
        rwa [harith] at h3
      rw [genKeysN_lookup_old _ _ _ hlater]
      simp [generate_key, generate_key_name, alookup]
    | succ j =>
      have hne2 : ∀ i, i < n → i ≠ j →
          keyName ((generate_key c none).2.uidStream ((generate_key c none).2.counter + i)) ≠
            keyName ((generate_key c none).2.uidStream ((generate_key c none).2.counter + j)) := by
        intro i hi hij
        have h3 := hne (i + 1) (by omega) (by omega)
        simp only [generate_key, generate_key_name]
        have ha : c.counter + (i + 1) = c.counter + 1 + i := by omega
        have hb : c.counter + (j + 1) = c.counter + 1 + j := by omega
        rwa [ha, hb] at h3
      have hres := ih (generate_key c none).2 j (by omega) hne2
      simp only [generate_key, generate_key_name] at hres
      have ha : c.counter + 1 + j = c.counter + (j + 1) := by omega
      rw [ha] at hres
      simp only [generate_key, generate_key_name]
      exact hres

/-- C5: a sequence of `N` `_generate_key` calls returns pairwise distinct keys
(under the uuid source's guarantee that the `N` 128-bit draws are distinct);
each returned key is the reserved textual marker followed by the rendering of a
128-bit identifier; each key is recorded with the Session's worker set (the
default owners) as its binding set; and no WorkerPool call is issued. -/
theorem claim_C5_generate_keys (c : Ctx) (N : Nat)
    (hdist : ∀ i, i < N → ∀ j, j < N →
      c.uidStream (c.counter + i) = c.uidStream (c.counter + j) → i = j)
    (hbound : ∀ i, i < N → c.uidStream (c.counter + i) < 2 ^ 128) :
    (genKeysN c N).1.Nodup ∧
    (∀ k ∈ (genKeysN c N).1, resPref.isPrefixOf k = true ∧ ∃ u, u < 2 ^ 128 ∧ k = keyName u) ∧
    (∀ k ∈ (genKeysN c N).1, alookup (genKeysN c N).2.key_records k = some c.targets) ∧
    (genKeysN c N).2.trace = c.trace := by
  have hkeys := genKeysN_keys c N
  refine ⟨?_, ?_, ?_, genKeysN_trace c N⟩
  · rw [hkeys]
    apply List.Nodup.map_on _ (List.nodup_range N)
    intro i hi j hj hij
    rw [List.mem_range] at hi hj
    exact hdist i hi j hj (keyName_inj (hbound i hi) (hbound j hj) hij)
  · intro k hk
    rw [hkeys] at hk
    rcases List.mem_map.1 hk with ⟨i, hi, rfl⟩
    rw [List.mem_range] at hi
    exact ⟨resPref_prefix_keyName _, _, hbound i hi, rfl⟩
  · intro k hk
    rw [hkeys] at hk
    rcases List.mem_map.1 hk with ⟨j, hj, rfl⟩
    rw [List.mem_range] at hj
    apply genKeysN_lookup_new c N j hj
    intro i hi hij heq
    exact hij (hdist i hi j hj (keyName_inj (hbound i hi) (hbound j hj) heq))

theorem claim_C5_generate_keys_witness :
    (genKeysN dummyCtx 3).1.Nodup ∧ (genKeysN dummyCtx 3).2.trace = dummyCtx.trace := by
  have h := claim_C5_generate_keys dummyCtx 3 (by decide) (by decide)
  exact ⟨h.1, h.2.2.2⟩

/-! Helper lemmas about the dispatch tail. -/

theorem finishApply_effects (c : Ctx) (meth : OpName) (cast? : Option OpName) (args : List KeyN) :
    (finishApply c meth cast? args).1 = .ok ⟨keyName (c.uidStream c.counter), c.id⟩ ∧
    (finishApply c meth cast? args).2.key_records.length = c.key_records.length + 1 ∧
    (finishApply c meth cast? args).2.trace.countP isComputeCall
      = c.trace.countP isComputeCall + 1 ∧
    (finishApply c meth cast? args).2.trace.countP isStoreCall = c.trace.countP isStoreCall ∧
    (∀ key ts, alookup c.key_records key = some ts →
      keyName (c.uidStream c.counter) ≠ key →
      alookup (finishApply c meth cast? args).2.key_records key = some ts) := by
  refine ⟨rfl, ?_, ?_, ?_, ?_⟩
  · simp [finishApply, generate_key, generate_key_name, ctxExecute]
  · simp [finishApply, generate_key, generate_key_name, ctxExecute, List.countP_append,
      List.countP_cons, isComputeCall]
  · simp [finishApply, generate_key, generate_key_name, ctxExecute, List.countP_append,
      List.countP_cons, isStoreCall]
  · intro key ts hts hne
    simp [finishApply, generate_key, generate_key_name, ctxExecute, alookup, hne, hts]

theorem key_and_push_one (c : Ctx) :
    (key_and_push c 1).1 = [keyName (c.uidStream c.counter)] ∧
    (key_and_push c 1).2.key_records = (keyName (c.uidStream c.counter), c.targets) :: c.key_records ∧
    (key_and_push c 1).2.trace = c.trace ++ [.store [keyName (c.uidStream c.counter)] c.targets] ∧
    (key_and_push c 1).2.counter = c.counter + 1 ∧
    (key_and_push c 1).2.targets = c.targets ∧
    (key_and_push c 1).2.uidStream = c.uidStream ∧
    (key_and_push c 1).2.id = c.id := by
  refine ⟨rfl, ?_, ?_, rfl, rfl, rfl, rfl⟩ <;>
    simp [key_and_push, genKeysN, generate_key, generate_key_name, ctxStore]


/-- C7 counterexample: a binary dispatch of a Handle with a scalar operand — a
shape the Dispatcher accepts — allocates TWO new keys in the registry (the
pushed scalar's key and the result key) and issues a store call in addition to
the compute request, contradicting the claim that every dispatch call
allocates exactly one new key. -/
theorem claim_C7_counterexample :
    (binary_proxy wCtxReg (.da ⟨kA, 0⟩) (.scalar 7) addName none).2.key_records.length
      = wCtxReg.key_records.length + 2 ∧
    (binary_proxy wCtxReg (.da ⟨kA, 0⟩) (.scalar 7) addName none).2.trace.countP isStoreCall
      = wCtxReg.trace.countP isStoreCall + 1 := by
  decide

/-- C7 (amended): every accepted dispatch issues exactly one remote compute
request and never mutates its operands (registry entries of previously
registered keys are preserved); it allocates exactly one new key — the result
key — plus one additional key (with one accompanying store call) per scalar
operand pushed before dispatch.  Unary dispatch allocates exactly one key and
issues exactly one compute request. -/
theorem claim_C7_dispatch_effects (c : Ctx) (a b : Operand) (meth : OpName)
    (cast? : Option OpName)
    (hacc : acceptedPair a b = true)
    (hmatch : sessionMismatch c.id a b = false)
    (hf0 : freshAt c c.counter)
    (hf1 : freshAt c (c.counter + 1)) :
    ((binary_proxy c a b meth cast?).2.key_records.length
        = c.key_records.length + 1 + scalarOps a + scalarOps b ∧
      (binary_proxy c a b meth cast?).2.trace.countP isComputeCall
        = c.trace.countP isComputeCall + 1 ∧
      (binary_proxy c a b meth cast?).2.trace.countP isStoreCall
        = c.trace.countP isStoreCall + scalarOps a + scalarOps b ∧
      (∀ key ts, alookup c.key_records key = some ts →
        alookup (binary_proxy c a b meth cast?).2.key_records key = some ts)) ∧
    (∀ x : DistArray, c.id = x.context →
      (unary_proxy c (.da x) meth cast?).2.key_records.length = c.key_records.length + 1 ∧
      (unary_proxy c (.da x) meth cast?).2.trace.countP isComputeCall
        = c.trace.countP isComputeCall + 1 ∧
      (unary_proxy c (.da x) meth cast?).2.trace.countP isStoreCall
        = c.trace.countP isStoreCall ∧
      (∀ key ts, alookup c.key_records key = some ts →
        alookup (unary_proxy c (.da x) meth cast?).2.key_records key = some ts)) := by
  have hfr0 : ∀ key ts, alookup c.key_records key = some ts →
      keyName (c.uidStream c.counter) ≠ key := by
    intro key ts hts heq
    rw [freshAt, heq, hts] at hf0
    exact Option.noConfusion hf0
  have hfr1 : ∀ key ts, alookup c.key_records key = some ts →
      keyName (c.uidStream (c.counter + 1)) ≠ key := by
    intro key ts hts heq
    rw [freshAt, heq, hts] at hf1
    exact Option.noConfusion hf1
  constructor
  · cases a with
    | da x =>
      cases b with
      | da y =>
        simp only [sessionMismatch, Bool.or_eq_false_iff, decide_eq_false_iff_not,
          not_not] at hmatch
        obtain ⟨hxy, hcx⟩ := hmatch
        have hbp : binary_proxy c (.da x) (.da y) meth cast?
            = finishApply c meth cast? [x.key, y.key] := by
          simp only [binary_proxy]
          rw [if_neg (not_ne_iff.2 hxy.symm), if_neg (not_ne_iff.2 hcx)]
        have hstep := finishApply_effects c meth cast? [x.key, y.key]
        rw [hbp]
        refine ⟨?_, hstep.2.2.1, ?_, ?_⟩
        · simpa [scalarOps] using hstep.2.1
        · simpa [scalarOps] using hstep.2.2.2.1
        · intro key ts hts
          exact hstep.2.2.2.2 key ts hts (hfr0 key ts hts)
      | scalar v =>
        simp only [sessionMismatch, decide_eq_false_iff_not, not_not] at hmatch
        have hkp := key_and_push_one c
        have hbp : binary_proxy c (.da x) (.scalar v) meth cast?
            = finishApply (key_and_push c 1).2 meth cast?
                [x.key, (key_and_push c 1).1.headD []] := by
          simp only [binary_proxy]
          rw [if_neg (not_ne_iff.2 hmatch)]
        have hstep := finishApply_effects (key_and_push c 1).2 meth cast?
          [x.key, (key_and_push c 1).1.headD []]
        rw [hbp]
        refine ⟨?_, ?_, ?_, ?_⟩
        · rw [hstep.2.1, hkp.2.1]
          simp [scalarOps]
        · rw [hstep.2.2.1, hkp.2.2.1]
          simp [List.countP_append, List.countP_cons, isComputeCall]
        · rw [hstep.2.2.2.1, hkp.2.2.1]
          simp [scalarOps, List.countP_append, List.countP_cons, isStoreCall]
        · intro key ts hts
          have hts1 : alookup (key_and_push c 1).2.key_records key = some ts := by
            rw [hkp.2.1]
            simp [alookup, hfr0 key ts hts, hts]
          have hne1 : keyName ((key_and_push c 1).2.uidStream (key_and_push c 1).2.counter)
              ≠ key := by
            rw [hkp.2.2.2.2.2.1, hkp.2.2.2.1]
            exact hfr1 key ts hts
          exact hstep.2.2.2.2 key ts hts1 hne1
      | other => simp [acceptedPair] at hacc
    | scalar v =>
      cases b with
      | da y =>
        simp only [sessionMismatch, decide_eq_false_iff_not, not_not] at hmatch
        have hkp := key_and_push_one c
        have hbp : binary_proxy c (.scalar v) (.da y) meth cast?
            = finishApply (key_and_push c 1).2 meth cast?
                [(key_and_push c 1).1.headD [], y.key] := by
          simp only [binary_proxy]
          rw [if_neg (not_ne_iff.2 hmatch)]
        have hstep := finishApply_effects (key_and_push c 1).2 meth cast?
          [(key_and_push c 1).1.headD [], y.key]
        rw [hbp]
        refine ⟨?_, ?_, ?_, ?_⟩
        · rw [hstep.2.1, hkp.2.1]
          simp [scalarOps]
        · rw [hstep.2.2.1, hkp.2.2.1]
          simp [List.countP_append, List.countP_cons, isComputeCall]
        · rw [hstep.2.2.2.1, hkp.2.2.1]
          simp [scalarOps, List.countP_append, List.countP_cons, isStoreCall]
        · intro key ts hts
          have hts1 : alookup (key_and_push c 1).2.key_records key = some ts := by
            rw [hkp.2.1]
            simp [alookup, hfr0 key ts hts, hts]
          have hne1 : keyName ((key_and_push c 1).2.uidStream (key_and_push c 1).2.counter)
              ≠ key := by
            rw [hkp.2.2.2.2.2.1, hkp.2.2.2.1]
            exact hfr1 key ts hts
          exact hstep.2.2.2.2 key ts hts1 hne1
      | scalar w => simp [acceptedPair] at hacc
      | other => simp [acceptedPair] at hacc
    | other => simp [acceptedPair] at hacc
  · intro x hcx
    have hup : unary_proxy c (.da x) meth cast? = finishApply c meth cast? [x.key] := by
      simp only [unary_proxy]
      rw [if_neg (not_ne_iff.2 hcx)]
    have hstep := finishApply_effects c meth cast? [x.key]
    rw [hup]
    refine ⟨hstep.2.1, hstep.2.2.1, hstep.2.2.2.1, ?_⟩
    intro key ts hts
    exact hstep.2.2.2.2 key ts hts (hfr0 key ts hts)

theorem claim_C7_dispatch_effects_witness :
    (binary_proxy wCtxReg (.da ⟨kA, 0⟩) (.da ⟨kB, 0⟩) addName none).2.key_records.length
      = wCtxReg.key_records.length + 1 ∧
    alookup (binary_proxy wCtxReg (.da ⟨kA, 0⟩) (.da ⟨kB, 0⟩) addName none).2.key_records kA
      = some [0, 1] := by
  have h := claim_C7_dispatch_effects wCtxReg (.da ⟨kA, 0⟩) (.da ⟨kB, 0⟩) addName none
    (by decide) (by decide) (by decide) (by decide)
  refine ⟨?_, h.1.2.2.2 kA [0, 1] (by decide)⟩
  simpa [scalarOps] using h.1.1

/-! Helper lemmas about `cleanup_keys`. -/

theorem removeRec_eq_self {recs : List (KeyN × List Nat)} {k : KeyN}
    (h : k ∉ recs.map Prod.fst) : removeRec recs k = recs := by
  induction recs with
  | nil => rfl
  | cons p rest ih =>
    have hp : p.1 ≠ k := by
      intro hh
      exact h (by rw [← hh]; exact List.mem_cons_self _ _)
    have hrest : k ∉ rest.map Prod.fst := fun hh => h (List.mem_cons_of_mem _ hh)
    simp only [removeRec, List.filter_cons]
    rw [if_pos (by simp [hp])]
    rw [show List.filter (fun q => !decide (q.1 = k)) rest = removeRec rest k from rfl]
    rw [ih hrest]

theorem cleanupGo_spec (keys : List KeyN) (c : Ctx)
    (hkeys : c.key_records.map Prod.fst = keys) (hnd : keys.Nodup) :
    (cleanupGo keys c).1 = .ok () ∧ (cleanupGo keys c).2.key_records = [] := by
  induction keys generalizing c with
  | nil =>
    have hnilrec : c.key_records = [] := by
      cases hc : c.key_records with
      | nil => rfl
      | cons p rest => rw [hc] at hkeys; simp at hkeys
    simp [cleanupGo, hnilrec]
  | cons k ks ih =>
    cases hc : c.key_records with
    | nil => rw [hc] at hkeys; simp at hkeys
    | cons p rest =>
      rw [hc] at hkeys
      simp only [List.map_cons, List.cons.injEq] at hkeys
      obtain ⟨hpk, hrest⟩ := hkeys
      have hkmem : k ∉ ks := (List.nodup_cons.1 hnd).1
      cases p with
      | mk a ts =>
        simp only at hpk
        have halk : alookup c.key_records k = some ts := by
          rw [hc]
          simp [alookup, hpk]
        simp only [cleanupGo, delete_key, halk]
        apply ih
        · have hrec1 : (delete_engine_key c k (some ts)).key_records = c.key_records := rfl
          simp only [hrec1, hc]
          simp only [removeRec, List.filter_cons, hpk]
          simp only [decide_True, Bool.not_true]
          rw [if_neg (by simp)]
          rw [show List.filter (fun q => !decide (q.1 = k)) rest = removeRec rest k from rfl]
          rw [removeRec_eq_self (by rw [hrest]; exact hkmem)]
          exact hrest
        · exact (List.nodup_cons.1 hnd).2

/-- C9: `cleanup_keys` deletes every currently tracked key — afterwards the
registry tracks no keys — and every internal `delete_key` call it makes
succeeds: since each deleted key is taken from the registry's own current
entries (which hold one entry per key), the unknown-key branch is unreachable
from `cleanup_keys`, so the whole loop returns successfully. -/
theorem claim_C9_cleanup_all (c : Ctx)
    (hnd : (c.key_records.map Prod.fst).Nodup) :
    (cleanup_keys c).1 = .ok () ∧ (cleanup_keys c).2.key_records = [] := by
  exact cleanupGo_spec (c.key_records.map Prod.fst) c rfl hnd

theorem claim_C9_cleanup_all_witness :
    (cleanup_keys wCtxReg).1 = .ok () ∧ (cleanup_keys wCtxReg).2.key_records = [] :=
  claim_C9_cleanup_all wCtxReg (by decide)

/-! Helper lemmas about group formation. -/

theorem rank_map_snd (view : List Nat) (f : Nat → Nat) :
    ((view.map (fun e => (e, f e))).map Prod.snd) = view.map f := by
  rw [List.map_map]
  rfl

theorem rank_map_lookup (view : List Nat) (f : Nat → Nat) (e : Nat) (he : e ∈ view) :
    alookup (view.map (fun x => (x, f x))) e = some (f e) := by
  induction view with
  | nil => simp at he
  | cons a rest ih =>
    by_cases hae : a = e
    · simp [alookup, hae]
    · rcases List.mem_cons.1 he with hh | hh
      · exact absurd hh.symm hae
      · simp [alookup, hae, ih hh]

theorem ranks_eq (view targets : List Nat) (f : Nat → Nat)
    (hsub : ∀ t ∈ targets, t ∈ view) :
    targets.map (fun e => (alookup (view.map (fun x => (x, f x))) e).getD 0)
      = targets.map f := by
  apply List.map_congr_left
  intro e he
  rw [rank_map_lookup view f e (hsub e he)]
  rfl

theorem make_intracomm_fail (c : Ctx)
    (hcov : sameElems (c.pool.viewTargets.map c.pool.privRank)
        (List.range c.pool.commSize) = false) :
    make_intracomm c = (.error .invalidGroup,
      { c with trace := c.trace ++ [.applyRank c.pool.viewTargets,
          .applySize c.pool.viewTargets] }) := by
  have hcond : sameElems ((c.pool.viewTargets.map
      (fun e => (e, c.pool.privRank e))).map Prod.snd) (List.range c.pool.commSize) = false := by
    rw [rank_map_snd]
    exact hcov
  simp only [make_intracomm, hcond]
  simp [List.append_assoc]

theorem make_intracomm_ok (c : Ctx)
    (hcov : sameElems (c.pool.viewTargets.map c.pool.privRank)
        (List.range c.pool.commSize) = true)
    (hsub : ∀ t ∈ c.targets, t ∈ c.pool.viewTargets) :
    (make_intracomm c).1 = .ok () ∧
    (make_intracomm c).2.comm_key = some (keyName (c.uidStream c.counter)) ∧
    (make_intracomm c).2.commList = c.targets.map c.pool.privRank ∧
    (make_intracomm c).2.targets = c.targets ∧
    (make_intracomm c).2.pool = c.pool ∧
    (make_intracomm c).2.key_records = c.key_records ∧
    (make_intracomm c).2.counter = c.counter + 1 ∧
    (make_intracomm c).2.uidStream = c.uidStream ∧
    (make_intracomm c).2.target_to_rank = c.target_to_rank ∧
    (make_intracomm c).2.id = c.id ∧
    (make_intracomm c).2.trace = c.trace ++ [.applyRank c.pool.viewTargets,
      .applySize c.pool.viewTargets,
      .execute (.createComm (keyName (c.uidStream c.counter))
        (c.targets.map c.pool.privRank)) c.pool.viewTargets] := by
  have hcond : sameElems ((c.pool.viewTargets.map
      (fun e => (e, c.pool.privRank e))).map Prod.snd) (List.range c.pool.commSize) = true := by
    rw [rank_map_snd]
    exact hcov
  have hranks := ranks_eq c.pool.viewTargets c.targets c.pool.privRank hsub
  have hcond2 : sameElems (List.map (Prod.snd ∘ fun e => (e, c.pool.privRank e))
      c.pool.viewTargets) (List.range c.pool.commSize) = true := by
    rw [show (Prod.snd ∘ fun e => (e, c.pool.privRank e)) = c.pool.privRank from rfl]
    exact hcov
  simp [make_intracomm, hcond, hcond2, generate_key_name, ctxExecute, List.append_assoc, hranks]

theorem delete_key_frame (c : Ctx) (k : KeyN) (d : Except DErr Unit × Ctx)
    (h : delete_key c k = d) :
    d.2.target_to_rank = c.target_to_rank ∧ d.2.targets = c.targets ∧
    d.2.pool = c.pool ∧ d.2.commList = c.commList ∧ d.2.comm_key = c.comm_key := by
  subst h
  unfold delete_key
  split <;> simp [delete_engine_key, ctxExecute]

theorem serm_ok_shape {c2 : Ctx} {u : Unit} {c : Ctx}
    (h : set_engine_rank_mapping c2 = (.ok u, c)) :
    c.targets = c2.targets ∧
    c.target_to_rank = c2.targets.map (fun e => (e, commRank c2.commList (c2.pool.privRank e))) ∧
    sameElems c.targets (c.target_to_rank.map Prod.fst) = true ∧
    sameElems (List.range c.targets.length) (c.target_to_rank.map Prod.snd) = true := by
  unfold set_engine_rank_mapping at h
  simp only [] at h
  split at h
  case _ u' c5 heqd =>
    split at h
    case isTrue hcond =>
      injection h with h1 h2
      subst h2
      have hf := delete_key_frame _ _ _ heqd
      rw [Bool.and_eq_true] at hcond
      refine ⟨?_, ?_, hcond.1, hcond.2⟩
      · rw [hf.2.1]
        rfl
      · rw [hf.1]
        rfl
    case isFalse hcond =>
      exact absurd h (by simp)
  case _ e c5 heqd =>
    exact absurd h (by simp)

theorem contextInit_ok_shape {pool : Pool} {targs : Option (List Nat)} {stream : Nat → Nat}
    {sid : Nat} {c : Ctx} (h : contextInit pool targs stream sid = .ok c) :
    ∃ ts u2 u3 c2, resolveTargets pool.viewTargets targs = .ok ts ∧
      make_intracomm (ctxExecute
        { id := sid, pool := pool, targets := ts, ns := pool.ns0, key_records := [],
          uidStream := stream, counter := 0, comm_key := none, commList := [],
          target_to_rank := [], trace := [] } .importMods pool.viewTargets) = (.ok u2, c2) ∧
      set_engine_rank_mapping c2 = (.ok u3, c) := by
  unfold contextInit at h
  split at h
  case _ e heq => exact absurd h (by simp)
  case _ ts heq =>
    simp only [] at h
    split at h
    case _ e c2x heq2 => exact absurd h (by simp)
    case _ u2 c2 heq2 =>
      split at h
      case _ e c3x heq3 => exact absurd h (by simp)
      case _ u3 c3 heq3 =>
        injection h with h1
        subst h1
        exact ⟨ts, u2, u3, c2, heq, heq2, heq3⟩

theorem resolveTargets_ok (allT ts : List Nat) (h : ∀ t ∈ ts, t ∈ allT) :
    resolveTargets allT (some ts) = .ok ts := by
  have hall : (ts.all fun t => decide (t ∈ allT)) = true := by
    rw [List.all_eq_true]
    intro t ht
    exact decide_eq_true (h t ht)
  simp [resolveTargets, hall]

theorem delete_key_error_char (c : Ctx) (k : KeyN) (e : DErr) (c' : Ctx)
    (h : delete_key c k = (.error e, c')) :
    alookup c.key_records k = none := by
  unfold delete_key at h
  split at h
  case _ ts heq => exact absurd h (by simp)
  case _ heq => exact heq

theorem sameElems_refl (l : List Nat) : sameElems l l = true :=
  sameElems_iff.2 rfl

theorem findIdx_getElem_of_nodup (l : List Nat) (i : Nat) (hi : i < l.length) (h : l.Nodup) :
    l.findIdx (fun x => x == l[i]) = i := by
  induction l generalizing i with
  | nil => simp at hi
  | cons a rest ih =>
    cases i with
    | zero => simp [List.findIdx_cons]
    | succ j =>
      have hj : j < rest.length := by simpa using hi
      have hget : (a :: rest)[j + 1] = rest[j] := rfl
      rw [hget]
      have hne : (a == rest[j]) = false := by
        rw [beq_eq_false_iff_ne]
        intro hh
        exact (List.nodup_cons.1 h).1 (hh ▸ List.getElem_mem hj)
      rw [List.findIdx_cons, hne]
      have ih2 := ih j hj (List.nodup_cons.1 h).2
      simp [ih2]

theorem commRank_map_range (ts : List Nat) (f : Nat → Nat) (hnd : ts.Nodup)
    (hinj : ∀ a ∈ ts, ∀ b ∈ ts, f a = f b → a = b) :
    ts.map (fun e => commRank (ts.map f) (f e)) = List.range ts.length := by
  have hmnd : (ts.map f).Nodup := List.Nodup.map_on hinj hnd
  apply List.ext_getElem
  · simp
  · intro n h1 h2
    have hn : n < ts.length := by simpa using h1
    have hn2 : n < (ts.map f).length := by simpa using hn
    have hget1 : (ts.map (fun e => commRank (ts.map f) (f e)))[n]
        = commRank (ts.map f) (f ts[n]) := by
      simp
    have hgf : f ts[n] = (ts.map f)[n] := by simp
    rw [hget1, hgf, List.getElem_range]
    exact findIdx_getElem_of_nodup (ts.map f) n hn2 hmnd

theorem t2r_facts (ts : List Nat) (f : Nat → Nat) (hnd : ts.Nodup)
    (hinj : ∀ a ∈ ts, ∀ b ∈ ts, f a = f b → a = b) :
    ((ts.map (fun e => (e, commRank (ts.map f) (f e)))).map Prod.fst) = ts ∧
    ((ts.map (fun e => (e, commRank (ts.map f) (f e)))).map Prod.snd) = List.range ts.length := by
  constructor
  · rw [List.map_map]
    rw [show (Prod.fst ∘ fun e => (e, commRank (ts.map f) (f e))) = id from rfl, List.map_id]
  · rw [List.map_map]
    rw [show (Prod.snd ∘ fun e => (e, commRank (ts.map f) (f e)))
        = (fun e => commRank (ts.map f) (f e)) from rfl]
    exact commRank_map_range ts f hnd hinj

/-- C1: whenever Session construction returns (rather than raising), the
derived rank mapping is a bijection from the Session's WorkerSet onto the
dense range: its domain is exactly the set of selected workers and its value
set is exactly `{0, ..., |WorkerSet|-1}`; a state violating these set
equalities makes `_set_engine_rank_mapping`'s assertions raise the fatal
internal inconsistent-rank fault instead of returning, so it cannot be the
state of a constructed Session. -/
theorem claim_C1_rank_bijection (pool : Pool) (targs : Option (List Nat)) (stream : Nat → Nat)
    (sid : Nat) (c : Ctx) (h : contextInit pool targs stream sid = .ok c) :
    (c.target_to_rank.map Prod.fst).toFinset = c.targets.toFinset ∧
    (c.target_to_rank.map Prod.snd).toFinset = Finset.range c.targets.length := by
  obtain ⟨ts, u2, u3, c2, hres, hmk, hserm⟩ := contextInit_ok_shape h
  have hs := serm_ok_shape hserm
  refine ⟨(sameElems_iff.1 hs.2.2.1).symm, ?_⟩
  have hv := sameElems_iff.1 hs.2.2.2
  rw [range_toFinset] at hv
  exact hv.symm

theorem claim_C1_rank_bijection_witness :
    (match contextInit exPool (some [3, 2]) exStream 0 with
      | .ok c => (c.target_to_rank.map Prod.fst).toFinset = c.targets.toFinset ∧
          (c.target_to_rank.map Prod.snd).toFinset = Finset.range c.targets.length
      | .error _ => False) := by
  cases hEq : contextInit exPool (some [3, 2]) exStream 0 with
  | ok c => exact claim_C1_rank_bijection exPool (some [3, 2]) exStream 0 c hEq
  | error e =>
    have hok : exOk (contextInit exPool (some [3, 2]) exStream 0) = true := by decide
    rw [hEq] at hok
    exact absurd hok (by simp [exOk])

/-- C2: if the pool's reported transport ranks do not cover exactly
`{0, ..., size-1}`, Session construction raises the invalid-group error, and
`_make_intracomm` raises it before issuing the subgroup-creation command (the
trace gains only the two rank/size queries and the communicator key is not
set); when the ranks do cover that range, construction succeeds and the
resulting RankMap is a bijection of the selected workers onto
`{0, ..., |selected|-1}`. -/
theorem claim_C2_form_group (pool : Pool) (ts : List Nat) (stream : Nat → Nat) (sid : Nat)
    (hinj : injOnList pool.privRank pool.viewTargets)
    (htnd : ts.Nodup)
    (hsub : ∀ t ∈ ts, t ∈ pool.viewTargets) :
    ((pool.viewTargets.map pool.privRank).toFinset ≠ Finset.range pool.commSize →
      contextInit pool (some ts) stream sid = .error .invalidGroup ∧
      (∀ c1 : Ctx, c1.pool = pool →
        (make_intracomm c1).1 = .error .invalidGroup ∧
        (make_intracomm c1).2.comm_key = c1.comm_key ∧
        (make_intracomm c1).2.trace = c1.trace ++ [.applyRank pool.viewTargets,
          .applySize pool.viewTargets])) ∧
    ((pool.viewTargets.map pool.privRank).toFinset = Finset.range pool.commSize →
      ∃ c, contextInit pool (some ts) stream sid = .ok c ∧
        c.targets = ts ∧
        c.target_to_rank.map Prod.fst = ts ∧
        c.target_to_rank.map Prod.snd = List.range ts.length) := by
  have hinjTs : ∀ a ∈ ts, ∀ b ∈ ts, pool.privRank a = pool.privRank b → a = b :=
    fun a ha b hb hpr => hinj a (hsub a ha) b (hsub b hb) hpr
  constructor
  · intro hcovF
    have hsameF : sameElems (pool.viewTargets.map pool.privRank)
        (List.range pool.commSize) = false := by
      cases hse : sameElems (pool.viewTargets.map pool.privRank) (List.range pool.commSize) with
      | false => rfl
      | true =>
        have := sameElems_iff.1 hse
        rw [range_toFinset] at this
        exact absurd this hcovF
    constructor
    · unfold contextInit
      rw [resolveTargets_ok pool.viewTargets ts hsub]
      simp only []
      rw [make_intracomm_fail _ (by exact hsameF)]
    · intro c1 hp
      have hsameF1 : sameElems (c1.pool.viewTargets.map c1.pool.privRank)
          (List.range c1.pool.commSize) = false := by
        rw [hp]
        exact hsameF
      have hfail := make_intracomm_fail c1 hsameF1
      rw [hfail, hp]
      exact ⟨rfl, rfl, rfl⟩
  · intro hcovT
    have hsame : sameElems (pool.viewTargets.map pool.privRank)
        (List.range pool.commSize) = true := by
      rw [sameElems_iff, range_toFinset]
      exact hcovT
    cases hinit : contextInit pool (some ts) stream sid with
    | ok c =>
      obtain ⟨ts', u2, u3, c2, hres, hmk, hserm⟩ := contextInit_ok_shape hinit
      rw [resolveTargets_ok pool.viewTargets ts hsub] at hres
      injection hres with hres1
      subst hres1
      have hs := serm_ok_shape hserm
      have hmkok := make_intracomm_ok
        (ctxExecute
          { id := sid, pool := pool, targets := ts, ns := pool.ns0, key_records := [],
            uidStream := stream, counter := 0, comm_key := none, commList := [],
            target_to_rank := [], trace := [] } .importMods pool.viewTargets)
        (by exact hsame) (by exact hsub)
      have hsnd := congrArg Prod.snd hmk
      rw [hsnd] at hmkok
      have hc2t : c2.targets = ts := hmkok.2.2.2.1.trans rfl
      have hc2cl : c2.commList = ts.map pool.privRank := hmkok.2.2.1.trans rfl
      have hc2p : c2.pool = pool := hmkok.2.2.2.2.1.trans rfl
      have ht2r : c.target_to_rank
          = ts.map (fun e => (e, commRank (ts.map pool.privRank) (pool.privRank e))) := by
        rw [hs.2.1, hc2t, hc2cl, hc2p]
      have htf := t2r_facts ts pool.privRank htnd hinjTs
      refine ⟨c, rfl, hs.1.trans hc2t, ?_, ?_⟩
      · rw [ht2r, htf.1]
      · rw [ht2r, htf.2]
    | error e =>
      exfalso
      unfold contextInit at hinit
      rw [resolveTargets_ok pool.viewTargets ts hsub] at hinit
      simp only [] at hinit
      split at hinit
      case _ e2 c2x heq2 =>
        have hmkok := make_intracomm_ok
          (ctxExecute
            { id := sid, pool := pool, targets := ts, ns := pool.ns0, key_records := [],
              uidStream := stream, counter := 0, comm_key := none, commList := [],
              target_to_rank := [], trace := [] } .importMods pool.viewTargets)
          (by exact hsame) (by exact hsub)
        have hfst := congrArg Prod.fst heq2
        rw [hmkok.1] at hfst
        exact absurd hfst (by simp)
      case _ u2 c2x heq2 =>
        have hmkok := make_intracomm_ok
          (ctxExecute
            { id := sid, pool := pool, targets := ts, ns := pool.ns0, key_records := [],
              uidStream := stream, counter := 0, comm_key := none, commList := [],
              target_to_rank := [], trace := [] } .importMods pool.viewTargets)
          (by exact hsame) (by exact hsub)
        have hsnd := congrArg Prod.snd heq2
        rw [hsnd] at hmkok
        have hc2t : c2x.targets = ts := hmkok.2.2.2.1.trans rfl
        have hc2cl : c2x.commList = ts.map pool.privRank := hmkok.2.2.1.trans rfl
        have hc2p : c2x.pool = pool := hmkok.2.2.2.2.1.trans rfl
        split at hinit
        case _ e3 c3x heq3 =>
          unfold set_engine_rank_mapping at heq3
          simp only [] at heq3
          split at heq3
          case _ u4 c5 heqd =>
            split at heq3
            case isTrue hcond => exact absurd heq3 (by simp)
            case isFalse hcond =>
              apply hcond
              have hf := delete_key_frame _ _ _ heqd
              have h5t : c5.targets = ts := by
                rw [hf.2.1]
                exact hc2t
              have h5r : c5.target_to_rank
                  = ts.map (fun e => (e, commRank (ts.map pool.privRank)
                      (pool.privRank e))) := by
                rw [hf.1]
                show c2x.targets.map (fun e => (e, commRank c2x.commList
                    (c2x.pool.privRank e))) = _
                rw [hc2t, hc2cl, hc2p]
              have htf := t2r_facts ts pool.privRank htnd hinjTs
              rw [Bool.and_eq_true, h5t, h5r, htf.1, htf.2]
              exact ⟨sameElems_refl ts, sameElems_refl _⟩
          case _ e4 c5 heqd =>
            have halkN := delete_key_error_char _ _ _ _ heqd
            have halkN2 : alookup ((keyName (c2x.uidStream c2x.counter), c2x.targets)
                :: c2x.key_records) (keyName (c2x.uidStream c2x.counter)) = none := by
              exact halkN
            rw [show alookup ((keyName (c2x.uidStream c2x.counter), c2x.targets)
                :: c2x.key_records) (keyName (c2x.uidStream c2x.counter))
                = if keyName (c2x.uidStream c2x.counter) = keyName (c2x.uidStream c2x.counter)
                  then some c2x.targets
                  else alookup c2x.key_records (keyName (c2x.uidStream c2x.counter))
              from rfl, if_pos rfl] at halkN2
            exact Option.noConfusion halkN2
        case _ u4 c3x heq3 => exact absurd hinit (by simp)

theorem claim_C2_form_group_witness :
    ∃ c, contextInit exPool (some [3, 2]) exStream 0 = .ok c ∧
      c.targets = [3, 2] ∧
      c.target_to_rank.map Prod.fst = [3, 2] ∧
      c.target_to_rank.map Prod.snd = List.range 2 := by
  have h := claim_C2_form_group exPool [3, 2] exStream 0 (by decide) (by decide) (by decide)
  exact h.2 (by decide)

/-- C8: on success of `_make_intracomm`, the subgroup-creation command is
issued (identically, once) to the ENTIRE view — every worker of the pool —
rather than only to the Session's selected targets, passing the transport
ranks of the selected workers; and (per the spec's model of
`create_comm_with_list`) every pool worker outside the selection receives the
null communicator handle. -/
theorem claim_C8_collective_creation (c : Ctx) (u : Unit) (c2 : Ctx)
    (h : make_intracomm c = (.ok u, c2))
    (hsub : ∀ t ∈ c.targets, t ∈ c.pool.viewTargets)
    (hinj : injOnList c.pool.privRank c.pool.viewTargets) :
    ∃ ck, c2.comm_key = some ck ∧
      c2.trace = c.trace ++ [.applyRank c.pool.viewTargets, .applySize c.pool.viewTargets,
        .execute (.createComm ck (c.targets.map c.pool.privRank)) c.pool.viewTargets] ∧
      (∀ e ∈ c.pool.viewTargets, e ∉ c.targets →
        commIsNull c2.commList (c.pool.privRank e) = true) := by
  cases hse : sameElems (c.pool.viewTargets.map c.pool.privRank)
      (List.range c.pool.commSize) with
  | false =>
    have hfail := make_intracomm_fail c hse
    rw [hfail] at h
    injection h with h1 h2
    exact absurd h1 (by simp)
  | true =>
    have hok := make_intracomm_ok c hse hsub
    have hsnd : (make_intracomm c).2 = c2 := by rw [h]
    refine ⟨keyName (c.uidStream c.counter), ?_, ?_, ?_⟩
    · rw [← hsnd]
      exact hok.2.1
    · rw [← hsnd]
      exact hok.2.2.2.2.2.2.2.2.2.2
    · intro e he hne
      have hcl : c2.commList = c.targets.map c.pool.privRank := by
        rw [← hsnd]
        exact hok.2.2.1
      rw [hcl]
      have hmem : c.pool.privRank e ∉ c.targets.map c.pool.privRank := by
        intro hm
        rcases List.mem_map.1 hm with ⟨t, ht, heq⟩
        have het : e = t := hinj e he t (hsub t ht) heq.symm
        exact hne (het ▸ ht)
      simp [commIsNull, hmem]

theorem claim_C8_collective_creation_witness :
    ∃ ck, (make_intracomm dummyCtx).2.comm_key = some ck ∧
      (∀ e ∈ dummyCtx.pool.viewTargets, e ∉ dummyCtx.targets →
        commIsNull (make_intracomm dummyCtx).2.commList (dummyCtx.pool.privRank e) = true) := by
  cases hEq : make_intracomm dummyCtx with
  | mk val c2 =>
    cases val with
    | ok u =>
      obtain ⟨ck, h1, h2, h3⟩ :=
        claim_C8_collective_creation dummyCtx u c2 hEq (by decide) (by decide)
      exact ⟨ck, h1, h3⟩
    | error e =>
      have hok : exOk (make_intracomm dummyCtx).1 = true := by decide
      rw [hEq] at hok
      exact absurd hok (by simp [exOk])

/-! Helper lemmas for the discovery path. -/

theorem delete_key_some (c : Ctx) (k : KeyN) (ts : List Nat)
    (h : alookup c.key_records k = some ts) :
    delete_key c k = (.ok (), { c with
      ns := fun e => if e ∈ ts then eraseName (c.ns e) k else c.ns e,
      key_records := removeRec c.key_records k,
      trace := c.trace ++ [.execute (.delName k) ts] }) := by
  unfold delete_key
  rw [h]
  rfl

theorem cleanupGo_frame (keys : List KeyN) (c : Ctx) :
    (cleanupGo keys c).2.comm_key = c.comm_key ∧ (cleanupGo keys c).2.targets = c.targets := by
  induction keys generalizing c with
  | nil => exact ⟨rfl, rfl⟩
  | cons k ks ih =>
    simp only [cleanupGo]
    split
    case _ u c1 heq =>
      have hf := delete_key_frame _ _ _ heq
      have hih := ih c1
      exact ⟨hih.1.trans hf.2.2.2.2, hih.2.trans hf.2.1⟩
    case _ e c1 heq =>
      have hf := delete_key_frame _ _ _ heq
      exact ⟨hf.2.2.2.2, hf.2.1⟩

theorem cleanupGo_ns (keys : List KeyN) (c : Ctx)
    (hkeys : c.key_records.map Prod.fst = keys) (hnd : keys.Nodup)
    (hns : ∀ e, (c.ns e).Nodup) :
    ∀ e name, name ∈ (cleanupGo keys c).2.ns e →
      name ∈ c.ns e ∧ ∀ ts, alookup c.key_records name = some ts → e ∉ ts := by
  induction keys generalizing c with
  | nil =>
    intro e name hmem
    have hnilrec : c.key_records = [] := by
      cases hc : c.key_records with
      | nil => rfl
      | cons p rest => rw [hc] at hkeys; simp at hkeys
    refine ⟨by simpa [cleanupGo] using hmem, ?_⟩
    intro ts hts
    rw [hnilrec] at hts
    exact absurd hts (by simp [alookup])
  | cons k ks ih =>
    intro e name hmem
    cases hc : c.key_records with
    | nil => rw [hc] at hkeys; simp at hkeys
    | cons p rest =>
      rw [hc] at hkeys
      simp only [List.map_cons, List.cons.injEq] at hkeys
      obtain ⟨hpk, hrest⟩ := hkeys
      have hkmem : k ∉ ks := (List.nodup_cons.1 hnd).1
      cases p with
      | mk a ts0 =>
        simp only at hpk
        have halk : alookup c.key_records k = some ts0 := by
          rw [hc]
          simp [alookup, hpk]
        have hdel := delete_key_some c k ts0 halk
        rw [cleanupGo, hdel] at hmem
        set c1 : Ctx := { c with
          ns := fun e2 => if e2 ∈ ts0 then eraseName (c.ns e2) k else c.ns e2,
          key_records := removeRec c.key_records k,
          trace := c.trace ++ [.execute (.delName k) ts0] } with hc1
        have hc1rec : c1.key_records.map Prod.fst = ks := by
          show (removeRec c.key_records k).map Prod.fst = ks
          rw [hc]
          simp only [removeRec, List.filter_cons, hpk]
          rw [if_neg (by simp)]
          rw [show List.filter (fun q => !decide (q.1 = k)) rest = removeRec rest k from rfl]
          rw [removeRec_eq_self (by rw [hrest]; exact hkmem)]
          exact hrest
        have hc1ns : ∀ e2, (c1.ns e2).Nodup := by
          intro e2
          show (if e2 ∈ ts0 then eraseName (c.ns e2) k else c.ns e2).Nodup
          by_cases he2 : e2 ∈ ts0
          · simpa [he2] using eraseName_nodup (hns e2) k
          · simpa [he2] using hns e2
        have hih := ih c1 hc1rec (List.nodup_cons.1 hnd).2 hc1ns e name hmem
        obtain ⟨hmem1, htrack1⟩ := hih
        have hmemc : name ∈ c.ns e := by
          by_cases he : e ∈ ts0
          · have : name ∈ eraseName (c.ns e) k := by simpa [he] using hmem1
            exact mem_eraseName_of_mem this
          · simpa [he] using hmem1
        refine ⟨hmemc, ?_⟩
        intro ts1 hts1
        by_cases hnk : name = k
        · subst hnk
          rw [show alookup ((a, ts0) :: rest) name
              = if a = name then some ts0 else alookup rest name from rfl] at hts1
          rw [if_pos hpk] at hts1
          injection hts1 with hts1e
          subst hts1e
          intro he
          have : name ∈ eraseName (c.ns e) name := by simpa [he] using hmem1
          exact eraseName_not_mem (hns e) name this
        · have hskip : alookup ((a, ts0) :: rest) name = alookup rest name := by
            rw [show alookup ((a, ts0) :: rest) name
                = if a = name then some ts0 else alookup rest name from rfl]
            rw [if_neg (by rw [hpk]; exact fun hh => hnk hh.symm)]
          rw [hskip] at hts1
          apply htrack1 ts1
          show alookup (removeRec c.key_records k) name = some ts1
          rw [alookup_removeRec_ne _ _ _ hnk, hc]
          rw [show alookup ((a, ts0) :: rest) name
              = if a = name then some ts0 else alookup rest name from rfl]
          rw [if_neg (by rw [hpk]; exact fun hh => hnk hh.symm)]
          exact hts1

theorem dictAppend_keys (acc : List (KeyN × List Nat)) (k : KeyN) (e : Nat) :
    ∀ p ∈ dictAppend acc k e, p.1 = k ∨ ∃ q ∈ acc, p.1 = q.1 := by
  intro p hp
  unfold dictAppend at hp
  split at hp
  case isTrue hs =>
    rcases List.mem_map.1 hp with ⟨q, hq, hpq⟩
    by_cases hqk : q.1 = k
    · right
      refine ⟨q, hq, ?_⟩
      rw [← hpq]
      simp [hqk]
    · right
      refine ⟨q, hq, ?_⟩
      rw [← hpq]
      simp [hqk]
  case isFalse hs =>
    rcases List.mem_append.1 hp with hh | hh
    · exact Or.inr ⟨p, hh, rfl⟩
    · left
      rcases List.mem_singleton.1 hh with rfl
      rfl

theorem foldDict_keys (kl : List KeyN) (e : Nat) :
    ∀ acc, ∀ p ∈ kl.foldl (fun a k => dictAppend a k e) acc,
      (∃ q ∈ acc, p.1 = q.1) ∨ p.1 ∈ kl := by
  induction kl with
  | nil =>
    intro acc p hp
    exact Or.inl ⟨p, hp, rfl⟩
  | cons k rest ih =>
    intro acc p hp
    simp only [List.foldl_cons] at hp
    rcases ih (dictAppend acc k e) p hp with hh | hh
    · rcases hh with ⟨q, hq, hpq⟩
      rcases dictAppend_keys acc k e q hq with h1 | h1
      · right
        rw [hpq, h1]
        exact List.mem_cons_self _ _
      · rcases h1 with ⟨r, hr, hqr⟩
        exact Or.inl ⟨r, hr, hpq.trans hqr⟩
    · right
      exact List.mem_cons_of_mem _ hh

theorem buildEngineKeys_keys (targets : List Nat) (keylists : List (List KeyN)) :
    ∀ p ∈ buildEngineKeys targets keylists, ∃ kl ∈ keylists, p.1 ∈ kl := by
  unfold buildEngineKeys
  suffices hgen : ∀ (zs : List (Nat × List KeyN)) (acc : List (KeyN × List Nat)),
      ∀ p ∈ zs.foldl (fun acc2 p2 => p2.2.foldl (fun a k => dictAppend a k p2.1) acc2) acc,
        (∃ q ∈ acc, p.1 = q.1) ∨ ∃ z ∈ zs, p.1 ∈ z.2 by
    intro p hp
    rcases hgen (targets.zip keylists) [] p hp with hh | hh
    · rcases hh with ⟨q, hq, _⟩
      exact absurd hq (by simp)
    · rcases hh with ⟨z, hz, hpz⟩
      exact ⟨z.2, (List.of_mem_zip hz).2, hpz⟩
  intro zs
  induction zs with
  | nil =>
    intro acc p hp
    exact Or.inl ⟨p, hp, rfl⟩
  | cons z rest ih =>
    intro acc p hp
    simp only [List.foldl_cons] at hp
    rcases ih _ p hp with hh | hh
    · rcases hh with ⟨q, hq, hpq⟩
      rcases foldDict_keys z.2 z.1 acc q hq with h1 | h1
      · rcases h1 with ⟨r, hr, hqr⟩
        exact Or.inl ⟨r, hr, hpq.trans hqr⟩
      · right
        exact ⟨z, List.mem_cons_self _ _, hpq ▸ h1⟩
    · rcases hh with ⟨z2, hz2, hpz2⟩
      exact Or.inr ⟨z2, List.mem_cons_of_mem _ hz2, hpz2⟩

theorem get_engine_keys_ok (c : Ctx) :
    ∃ c4, get_engine_keys c
        = (.ok (buildEngineKeys c.targets (c.targets.map (fun e => prefFilter (c.ns e)))), c4) ∧
      c4.comm_key = c.comm_key ∧ c4.targets = c.targets := by
  unfold get_engine_keys
  simp only []
  split
  case _ u c4 heqd =>
    have hf := delete_key_frame _ _ _ heqd
    have ht : c4.targets = c.targets := hf.2.1.trans rfl
    have hck : c4.comm_key = c.comm_key := hf.2.2.2.2.trans rfl
    refine ⟨c4, ?_, hck, ht⟩
    rw [ht]
    rfl
  case _ e c4 heqd =>
    have halkN := delete_key_error_char _ _ _ _ heqd
    have halkN2 : alookup ((keyName (c.uidStream c.counter), c.targets) :: c.key_records)
        (keyName (c.uidStream c.counter)) = none := halkN
    rw [show alookup ((keyName (c.uidStream c.counter), c.targets) :: c.key_records)
        (keyName (c.uidStream c.counter))
        = if keyName (c.uidStream c.counter) = keyName (c.uidStream c.counter)
          then some c.targets
          else alookup c.key_records (keyName (c.uidStream c.counter))
      from rfl, if_pos rfl] at halkN2
    exact Option.noConfusion halkN2

/-- C6 counterexample: on a freshly constructed session over the 4-worker
pool, `cleanup_keys` succeeds, yet discovery (`get_engine_keys`, which
restricts to the reserved prefix) still reports exactly one binding — the
communicator key, which was created without being entered into the registry —
so after `cleanup_all()` the reserved-prefix discovery is NOT empty. -/
theorem claim_C6_counterexample :
    exOk exInitAll = true ∧
    exOk (cleanup_keys exCtxAfterInit).1 = true ∧
    exDiscoverLen = 1 := by
  decide

/-- C6 (amended): after `cleanup_all()`, the only reserved-prefix binding that
may remain on any session worker is the Session's communicator key, so
discovery restricted to the reserved prefix returns at most the communicator
key's entry, and the leftover report (discovery minus Context-internal keys)
is empty. -/
theorem claim_C6_cleanup_discover (c : Ctx) (ck : KeyN)
    (hck : c.comm_key = some ck)
    (hnd : (c.key_records.map Prod.fst).Nodup)
    (hns : ∀ e, (c.ns e).Nodup)
    (hsync : syncedNS c ck) :
    (cleanup_keys c).1 = .ok () ∧
    (∀ e ∈ (cleanup_keys c).2.targets, ∀ name ∈ (cleanup_keys c).2.ns e,
      resPref.isPrefixOf name = true → name = ck) ∧
    (∀ res c2, get_engine_keys (cleanup_keys c).2 = (.ok res, c2) → ∀ p ∈ res, p.1 = ck) ∧
    (∀ res c2, get_leftover_keys (cleanup_keys c).2 = (.ok res, c2) → res = []) := by
  have hok : (cleanup_keys c).1 = .ok () ∧ (cleanup_keys c).2.key_records = [] :=
    cleanupGo_spec (c.key_records.map Prod.fst) c rfl hnd
  have hfr : (cleanup_keys c).2.comm_key = c.comm_key ∧ (cleanup_keys c).2.targets = c.targets :=
    cleanupGo_frame (c.key_records.map Prod.fst) c
  have hnsl : ∀ e, ∀ name ∈ (cleanup_keys c).2.ns e,
      name ∈ c.ns e ∧ ∀ ts, alookup c.key_records name = some ts → e ∉ ts :=
    cleanupGo_ns (c.key_records.map Prod.fst) c rfl hnd hns
  have hpart2 : ∀ e ∈ (cleanup_keys c).2.targets, ∀ name ∈ (cleanup_keys c).2.ns e,
      resPref.isPrefixOf name = true → name = ck := by
    intro e he name hname hpref
    have h2 := hnsl e name hname
    have het : e ∈ c.targets := by
      have hteq : (cleanup_keys c).2.targets = c.targets := hfr.2
      rwa [hteq] at he
    rcases hsync e het name h2.1 hpref with hh | hh
    · exact hh
    · exfalso
      unfold trackedHere at hh
      split at hh
      case _ ts heq =>
        rw [decide_eq_true_eq] at hh
        exact h2.2 ts heq hh
      case _ heq => exact Bool.noConfusion hh
  have hpart3 : ∀ res c2, get_engine_keys (cleanup_keys c).2 = (.ok res, c2) →
      ∀ p ∈ res, p.1 = ck := by
    intro res c2 heq p hp
    obtain ⟨c4, heqq, hc4ck, hc4t⟩ := get_engine_keys_ok (cleanup_keys c).2
    rw [heqq, Prod.mk.injEq] at heq
    obtain ⟨h1, h2⟩ := heq
    injection h1 with h1
    rw [← h1] at hp
    obtain ⟨kl, hkl, hpkl⟩ := buildEngineKeys_keys _ _ p hp
    rcases List.mem_map.1 hkl with ⟨e, he, hkle⟩
    rw [← hkle] at hpkl
    have hmf := List.mem_filter.1 hpkl
    exact hpart2 e he p.1 hmf.1 hmf.2
  refine ⟨hok.1, hpart2, hpart3, ?_⟩
  intro res c2 hleft
  unfold get_leftover_keys at hleft
  split at hleft
  case _ ek c2x heqg =>
    rw [Prod.mk.injEq] at hleft
    obtain ⟨h1, h2⟩ := hleft
    injection h1 with h1
    obtain ⟨c4, heqq, hc4ck, hc4t⟩ := get_engine_keys_ok (cleanup_keys c).2
    rw [heqq, Prod.mk.injEq] at heqg
    obtain ⟨hg1, hg2⟩ := heqg
    injection hg1 with hg1
    have hc2xck : c2x.comm_key = some ck := by
      rw [← hg2, hc4ck, hfr.1, hck]
    rw [← h1]
    unfold clean_engine_keys
    rw [List.filter_eq_nil_iff]
    intro p hp
    have hpck : p.1 = ck := by
      apply hpart3 ek c2x _ p hp
      rw [heqq, Prod.mk.injEq]
      exact ⟨by rw [hg1], hg2⟩
    simp [hpck, hc2xck]
  case _ e c2x heqg => exact absurd hleft (by simp)

theorem claim_C6_cleanup_discover_witness :
    (cleanup_keys wCtxSync).1 = .ok () ∧
    (∀ e ∈ (cleanup_keys wCtxSync).2.targets, ∀ name ∈ (cleanup_keys wCtxSync).2.ns e,
      resPref.isPrefixOf name = true → name = ckW) := by
  have hns : ∀ e, (wCtxSync.ns e).Nodup := by
    intro e
    show (if e ∈ ([0, 1] : List Nat) then [ckW, kB] else []).Nodup
    by_cases he : e ∈ ([0, 1] : List Nat)
    · rw [if_pos he]
      decide
    · rw [if_neg he]
      exact List.nodup_nil
  have h := claim_C6_cleanup_discover wCtxSync ckW (by decide) (by decide) hns (by decide)
  exact ⟨h.1, h.2.1⟩

/-! Helper lemmas: preservation of the communicator-key invariant. -/

theorem generate_key_commInv {ck : KeyN} (c : Ctx) (t? : Option (List Nat))
    (hinv : commInv c ck) : commInv (generate_key c t?).2 ck := by
  refine ⟨hinv.1, ?_, hinv.2.2.1, ?_⟩
  · show alookup ((keyName (c.uidStream c.counter), t?.getD c.targets) :: c.key_records) ck
      = none
    rw [show alookup ((keyName (c.uidStream c.counter), t?.getD c.targets) :: c.key_records) ck
        = if keyName (c.uidStream c.counter) = ck then some (t?.getD c.targets)
          else alookup c.key_records ck from rfl]
    rw [if_neg (hinv.2.2.2 c.counter (le_refl _))]
    exact hinv.2.1
  · intro n hn
    have hn2 : c.counter + 1 ≤ n := hn
    exact hinv.2.2.2 n (by omega)

theorem exec_listGlobals_commInv {ck : KeyN} (c : Ctx) (lhs p2 : KeyN) (ts : List Nat)
    (hinv : commInv c ck) : commInv (ctxExecute c (.listGlobals lhs p2) ts) ck := by
  refine ⟨hinv.1, hinv.2.1, ?_, hinv.2.2.2⟩
  intro e he
  show ck ∈ (if e ∈ ts then bind1 (c.ns e) lhs else c.ns e)
  by_cases hets : e ∈ ts
  · rw [if_pos hets]
    exact mem_bind1_iff.2 (Or.inl (hinv.2.2.1 e he))
  · rw [if_neg hets]
    exact hinv.2.2.1 e he

theorem dek_commInv {ck : KeyN} (c : Ctx) (k : KeyN) (t? : Option (List Nat)) (hk : k ≠ ck)
    (hinv : commInv c ck) : commInv (delete_engine_key c k t?) ck := by
  refine ⟨hinv.1, hinv.2.1, ?_, hinv.2.2.2⟩
  intro e he
  show ck ∈ (if e ∈ t?.getD c.targets then eraseName (c.ns e) k else c.ns e)
  by_cases hets : e ∈ t?.getD c.targets
  · rw [if_pos hets]
    exact mem_eraseName_of_ne (fun hh => hk hh.symm) (hinv.2.2.1 e he)
  · rw [if_neg hets]
    exact hinv.2.2.1 e he

theorem delete_key_commInv {ck : KeyN} (c : Ctx) (k : KeyN) (hinv : commInv c ck) :
    commInv (delete_key c k).2 ck := by
  unfold delete_key
  split
  case _ ts heq =>
    have hkck : k ≠ ck := by
      intro hh
      rw [hh, hinv.2.1] at heq
      exact Option.noConfusion heq
    have hstep := dek_commInv c k (some ts) hkck hinv
    refine ⟨hstep.1, ?_, hstep.2.2.1, hstep.2.2.2⟩
    show alookup (removeRec c.key_records k) ck = none
    rw [alookup_removeRec_ne _ _ _ (fun hh => hkck hh.symm)]
    exact hinv.2.1
  case _ heq => exact hinv

theorem delete_key_commInv_eq {ck : KeyN} {c : Ctx} {k : KeyN} {d : Except DErr Unit × Ctx}
    (h : delete_key c k = d) (hinv : commInv c ck) : commInv d.2 ck := by
  subst h
  exact delete_key_commInv c k hinv

theorem cleanupGo_commInv {ck : KeyN} : ∀ (keys : List KeyN) (c : Ctx), commInv c ck →
    commInv (cleanupGo keys c).2 ck := by
  intro keys
  induction keys with
  | nil => intro c hinv; exact hinv
  | cons k ks ih =>
    intro c hinv
    simp only [cleanupGo]
    split
    case _ u c1 heq => exact ih c1 (delete_key_commInv_eq heq hinv)
    case _ e c1 heq => exact delete_key_commInv_eq heq hinv

theorem get_engine_keys_commInv {ck : KeyN} {c : Ctx} {r : Except DErr (List (KeyN × List Nat))}
    {c2 : Ctx} (h : get_engine_keys c = (r, c2)) (hinv : commInv c ck) : commInv c2 ck := by
  unfold get_engine_keys at h
  simp only [] at h
  have h1 := generate_key_commInv c none hinv
  have h2 := exec_listGlobals_commInv (generate_key c none).2 (generate_key c none).1 resPref
    (generate_key c none).2.targets h1
  split at h
  case _ u c4 heqd =>
    rw [Prod.mk.injEq] at h
    obtain ⟨ha, hb⟩ := h
    subst hb
    exact delete_key_commInv_eq heqd h2
  case _ e c4 heqd =>
    rw [Prod.mk.injEq] at h
    obtain ⟨ha, hb⟩ := h
    subst hb
    exact delete_key_commInv_eq heqd h2

theorem get_leftover_keys_commInv {ck : KeyN} {c : Ctx}
    {r : Except DErr (List (KeyN × List Nat))} {c2 : Ctx}
    (h : get_leftover_keys c = (r, c2)) (hinv : commInv c ck) : commInv c2 ck := by
  unfold get_leftover_keys at h
  split at h
  case _ ek c2x heqg =>
    rw [Prod.mk.injEq] at h
    obtain ⟨ha, hb⟩ := h
    subst hb
    exact get_engine_keys_commInv heqg hinv
  case _ e c2x heqg =>
    rw [Prod.mk.injEq] at h
    obtain ⟨ha, hb⟩ := h
    subst hb
    exact get_engine_keys_commInv heqg hinv

theorem get_leftover_keys_entries {ck : KeyN} {c : Ctx} {lk : List (KeyN × List Nat)} {c2 : Ctx}
    (h : get_leftover_keys c = (.ok lk, c2)) (hck : c2.comm_key = some ck) :
    ∀ p ∈ lk, p.1 ≠ ck := by
  unfold get_leftover_keys at h
  split at h
  case _ ek c2x heqg =>
    rw [Prod.mk.injEq] at h
    obtain ⟨ha, hb⟩ := h
    injection ha with ha
    subst hb
    intro p hp
    rw [← ha] at hp
    have hmf := List.mem_filter.1 hp
    have hpred := hmf.2
    rw [Bool.not_eq_eq_eq_not, Bool.not_true, decide_eq_false_iff_not] at hpred
    intro hh
    apply hpred
    rw [hh, hck]
  case _ e c2x heqg => exact absurd h (by simp)

theorem foldDek_commInv {ck : KeyN} : ∀ (lk : List (KeyN × List Nat)) (c : Ctx),
    (∀ p ∈ lk, p.1 ≠ ck) → commInv c ck →
    commInv (lk.foldl (fun acc p => delete_engine_key acc p.1 (some p.2)) c) ck := by
  intro lk
  induction lk with
  | nil => intro c _ hinv; exact hinv
  | cons p rest ih =>
    intro c hne hinv
    simp only [List.foldl_cons]
    exact ih _ (fun q hq => hne q (List.mem_cons_of_mem _ hq))
      (dek_commInv c p.1 (some p.2) (hne p (List.mem_cons_self _ _)) hinv)

theorem purge_keys_commInv {ck : KeyN} (c : Ctx) (hinv : commInv c ck) :
    commInv (purge_keys c).2 ck := by
  unfold purge_keys
  split
  case _ lk c1 heq =>
    have hc1 := get_leftover_keys_commInv heq hinv
    exact foldDek_commInv lk c1 (get_leftover_keys_entries heq hc1.1) hc1
  case _ e c1 heq => exact get_leftover_keys_commInv heq hinv

theorem applyOp_commInv {ck : KeyN} (c : Ctx) (op : RegOp) (hinv : commInv c ck) :
    commInv (applyOp c op) ck := by
  cases op with
  | gen => exact generate_key_commInv c none hinv
  | del k => exact delete_key_commInv c k hinv
  | cleanup => exact cleanupGo_commInv _ c hinv
  | purge => exact purge_keys_commInv c hinv

theorem applyOps_commInv {ck : KeyN} : ∀ (ops : List RegOp) (c : Ctx), commInv c ck →
    commInv (applyOps c ops) ck := by
  intro ops
  induction ops with
  | nil => intro c hinv; exact hinv
  | cons op rest ih =>
    intro c hinv
    simp only [applyOps, List.foldl_cons]
    exact ih (applyOp c op) (applyOp_commInv c op hinv)

/-- C10: the communicator key is never entered into the registry's key-records;
    under every sequence of allocation, deletion, cleanup-all and
    purge-untracked operations on a state satisfying the communicator-key
    invariant, its remote binding persists on every pool worker, leftover
    detection excludes it from the entries it reports, and only
    `clear_comm_key` drops the stored key and removes the remote binding. -/
theorem claim_C10_comm_key_persist (c : Ctx) (ck : KeyN) (hinv : commInv c ck)
    (ops : List RegOp) :
    (applyOps c ops).comm_key = some ck ∧
    alookup (applyOps c ops).key_records ck = none ∧
    (∀ e ∈ (applyOps c ops).pool.viewTargets, ck ∈ (applyOps c ops).ns e) ∧
    (∀ lk c2, get_leftover_keys (applyOps c ops) = (.ok lk, c2) → ∀ p ∈ lk, p.1 ≠ ck) ∧
    (clear_comm_key (applyOps c ops)).comm_key = none ∧
    (∀ e ∈ (applyOps c ops).targets, ((applyOps c ops).ns e).Nodup →
      ck ∉ (clear_comm_key (applyOps c ops)).ns e) := by
  have hR := applyOps_commInv ops c hinv
  refine ⟨hR.1, hR.2.1, hR.2.2.1, ?_, ?_, ?_⟩
  · intro lk c2 h p hp
    exact get_leftover_keys_entries h (get_leftover_keys_commInv h hR).1 p hp
  · unfold clear_comm_key
    rw [hR.1]
  · intro e he hnd
    unfold clear_comm_key
    rw [hR.1]
    show ck ∉ (delete_engine_key (applyOps c ops) ck none).ns e
    show ck ∉ (if e ∈ (applyOps c ops).targets then eraseName ((applyOps c ops).ns e) ck
      else (applyOps c ops).ns e)
    rw [if_pos he]
    exact eraseName_not_mem hnd ck

theorem claim_C10_comm_key_persist_witness :
    (applyOps wCtxComm [RegOp.gen, RegOp.purge, RegOp.cleanup, RegOp.del kA]).comm_key
      = some ckW ∧
    alookup (applyOps wCtxComm
      [RegOp.gen, RegOp.purge, RegOp.cleanup, RegOp.del kA]).key_records ckW = none ∧
    (clear_comm_key (applyOps wCtxComm
      [RegOp.gen, RegOp.purge, RegOp.cleanup, RegOp.del kA])).comm_key = none := by
  have hinv : commInv wCtxComm ckW := by
    refine ⟨rfl, rfl, ?_, ?_⟩
    · intro e he
      exact List.mem_singleton.2 rfl
    · intro n hn
      have h1 : (1 : Nat) ≤ n := hn
      show keyName (min n 1) ≠ ckW
      rw [Nat.min_eq_right h1]
      decide
  have h := claim_C10_comm_key_persist wCtxComm ckW hinv
    [RegOp.gen, RegOp.purge, RegOp.cleanup, RegOp.del kA]
  exact ⟨h.1, h.2.1, h.2.2.2.2.1⟩
